import Mathlib

/-!
Verification of `eventlet/patcher.py` (runtime substitution engine).

The development shallowly embeds the data model and operations of the
patcher module:

* Model A — `sys.modules` as an association list of (name, value) bindings
  with Python-dict semantics; `SysModulesSaver` (capture/restore),
  `inject` (transactional override-import-restore) and `original`
  (native-module cache with dependency resolution).
* Model B — `monkey_patch`: toggle resolution, the family selection loop
  gated by `already_patched`, in-place attribute installation/deletion on
  module objects, the always-on fixups, and the existing-lock upgrade
  trigger; `is_monkey_patched`.
* Model C — `_upgrade_instances`: a fuel-indexed depth-first traversal of
  a finite heap of Python objects with an identity-keyed visited set and
  an old-to-new memo table.
* Model D — `_convert_py3_rlock`: transfer of recursion depth and
  ownership from a native re-entrant lock to a Python-level one.
-/

namespace EventletPatcher

/-- A Python value as far as the registry is concerned.  `pyNone` is the
literal `None` (which `SysModulesSaver` uses as its absent marker, and
which `sys.modules` can in principle also hold as a real binding);
`atom n` is any other object, identified by `n`. -/
inductive Value where
  | pyNone
  | atom (n : Nat)
  deriving DecidableEq

/-- `sys.modules`: an insertion-ordered mapping from module names to
values, with Python-dict semantics (first matching key wins on lookup,
assignment replaces in place, otherwise appends). -/
abbrev Registry := List (String × Value)

/-- Python `d[k]` / `k in d` lookup. -/
def dictGet (r : Registry) (k : String) : Option Value :=
  match r with
  | [] => Option.none
  | p :: t => if p.1 = k then Option.some p.2 else dictGet t k

/-- Python `d[k] = v`: replace the binding in place if the key is
present, otherwise append it. -/
def dictSet (r : Registry) (k : String) (v : Value) : Registry :=
  match r with
  | [] => [(k, v)]
  | p :: t => if p.1 = k then (k, v) :: t else p :: dictSet t k v

/-- Python `d.pop(k, None)` / `del d[k]` with a swallowed `KeyError`:
remove the binding for `k` (all occurrences; keys are unique in practice). -/
def dictPop (r : Registry) (k : String) : Registry :=
  match r with
  | [] => []
  | p :: t => if p.1 = k then dictPop t k else p :: dictPop t k

/-- `sys.modules.get(modname, None)` — the read `SysModulesSaver.save`
performs, with `None` standing for an absent binding. -/
def sysGet (r : Registry) (k : String) : Value :=
  (dictGet r k).getD Value.pyNone

/-- The `_saved` dictionary of a `SysModulesSaver`: module name to the
binding seen at save time (with `None` as the absent marker). -/
abbrev Saver := List (String × Value)

/-- Python dict assignment into `_saved` (replace in place or append). -/
def savedInsert (s : Saver) (k : String) (v : Value) : Saver :=
  match s with
  | [] => [(k, v)]
  | p :: t => if p.1 = k then (k, v) :: t else p :: savedInsert t k v

/-- `SysModulesSaver.save(*module_names)`: record
`sys.modules.get(modname, None)` for each name, in order. -/
def saverSave (s : Saver) (r : Registry) (names : List String) : Saver :=
  names.foldl (fun acc n => savedInsert acc n (sysGet r n)) s

/-- `SysModulesSaver.restore`: write every saved name back, setting the
recorded value, or deleting the name when the recorded value is the
`None` marker. -/
def saverRestore (s : Saver) (r : Registry) : Registry :=
  s.foldl
    (fun acc p => if p.2 = Value.pyNone then dictPop acc p.1 else dictSet acc p.1 p.2)
    r

/-- The registry binding a single restore step leaves at the restored
key is determined by the saved value alone. -/
def stepVal (v : Value) : Option Value :=
  if v = Value.pyNone then Option.none else Option.some v

/-- Last saved value for a key, scanning the `_saved` entries from the
right (later entries win during `restore`). -/
def savedLast (s : Saver) (m : String) : Option Value :=
  match s with
  | [] => Option.none
  | p :: t =>
    match savedLast t m with
    | Option.some v => Option.some v
    | Option.none => if p.1 = m then Option.some p.2 else Option.none

/-- A saver is consistent with registry `r` when every saved entry is
exactly what `save` would read from `r`. -/
def SaverConsistent (r : Registry) (s : Saver) : Prop :=
  ∀ p ∈ s, p.2 = sysGet r p.1

/-- The submodule purge inside `inject`: pop every key that starts with
`module_name + "."`. -/
def dictPopSubmodules (r : Registry) (module_name : String) : Registry :=
  r.filter (fun p => ! ((module_name ++ ".").isPrefixOf p.1))

/-- The saver `inject` builds: the names of the override modules
(captured by the `SysModulesSaver` constructor), then the target module
name (captured by the explicit `saver.save(module_name)` call).  All
reads happen against the pre-call registry `r`. -/
def injectSaved (module_name : String) (additional : List (String × Value))
    (r : Registry) : Saver :=
  saverSave (saverSave [] r (additional.map Prod.fst)) r [module_name]

/-- The registry visible to the import step of `inject`: overrides
written on top of `r`, the target module popped, and its submodules
popped. -/
def injectPre (module_name : String) (additional : List (String × Value))
    (r : Registry) : Registry :=
  let r1 := additional.foldl (fun acc p => dictSet acc p.1 p.2) r
  dictPopSubmodules (dictPop r1 module_name) module_name

/-- `inject(module_name, new_globals, *additional_modules)`.  The import
step is the parameter `importFn`: it runs against the overridden
registry and returns the resolved value or an error, together with the
(possibly mutated) registry.  An empty `additional` list is replaced by
the default green-module selection `defaultGreen`, as in the source.
The `new_globals` population step copies attributes of the resolved
module into a caller-supplied dictionary and never touches
`sys.modules`, so it is not modelled here. -/
def inject (defaultGreen : List (String × Value)) (module_name : String)
    (additional : List (String × Value))
    (importFn : Registry → (Except String Value) × Registry) (r : Registry) :
    (Except String Value) × Registry :=
  let patched_name := "__patched_module_" ++ module_name
  match dictGet r patched_name with
  | Option.some m => (Except.ok m, r)
  | Option.none =>
    let adds := if additional.isEmpty then defaultGreen else additional
    let saved := injectSaved module_name adds r
    let out := importFn (injectPre module_name adds r)
    match out.1 with
    | Except.ok v => (Except.ok v, saverRestore saved (dictSet out.2 patched_name v))
    | Except.error e => (Except.error e, saverRestore saved out.2)

/-- The fixed dependency table of `original`:
`deps = {"threading": "_thread", "queue": "threading"}`. -/
def depOf (m : String) : Option String :=
  if m = "threading" then Option.some "_thread"
  else if m = "queue" then Option.some "threading"
  else Option.none

/-- Rank for the (statically bounded) dependency recursion. -/
def depRank (m : String) : Nat :=
  if m = "queue" then 2 else if m = "threading" then 1 else 0

/-- Environment of `original`: the import step (which sees the registry
in force at import time), plus the two ingredients of the historical
`Queue.__init__` fix-up (`hasattr(real_mod, "_threading")` and the
constructor-wrapping itself). -/
structure OrigEnv where
  importFn : String → Registry → Value
  hasThreadingAttr : Value → Bool
  queueInitFix : Value → Value

/-- `original(modname)`: return the cached native module if present;
otherwise save the current binding, pop it, resolve and temporarily
install the declared dependency's native form, import, apply the
`Queue`/`queue` constructor fix-up, cache the result permanently under
`"__original_module_" + modname`, and restore the saved bindings.  The
third component logs the names actually imported, in order. -/
def original (env : OrigEnv) (modname : String) (r : Registry) :
    Value × Registry × List String :=
  let key := "__original_module_" ++ modname
  match dictGet r key with
  | Option.some v => (v, r, [])
  | Option.none =>
    let saved := saverSave [] r [modname]
    let r1 := dictPop r modname
    let sdl :=
      if hdep : (depOf modname).isSome then
        let dep := (depOf modname).get hdep
        let saved2 := saverSave saved r1 [dep]
        let out := original env dep r1
        (saved2, dictSet out.2.1 dep out.1, out.2.2)
      else (saved, r1, ([] : List String))
    let v0 := env.importFn modname sdl.2.1
    let v := if (modname = "Queue" ∨ modname = "queue") ∧ ¬ env.hasThreadingAttr v0
      then env.queueInitFix v0 else v0
    let r3 := dictSet sdl.2.1 key v
    let r4 := saverRestore sdl.1 r3
    ((dictGet r4 key).getD Value.pyNone, r4, sdl.2.2 ++ [modname])
termination_by depRank modname
decreasing_by
  by_cases h1 : modname = "threading"
  · subst h1
    simp [depOf, depRank]
  · by_cases h2 : modname = "queue"
    · subst h2
      simp [depOf, depRank, h1]
    · exfalso
      simp [depOf, h1, h2] at hdep

/-- The native `_thread` module value the first `original("threading")`
call resolves (import of `_thread` with `threading` and `_thread` popped). -/
def origTV (env : OrigEnv) (r : Registry) : Value :=
  env.importFn "_thread" (dictPop (dictPop r "threading") "_thread")

/-- Registry state after the inner `original("_thread")` call. -/
def origRT (env : OrigEnv) (r : Registry) : Registry :=
  saverRestore (saverSave [] (dictPop r "threading") ["_thread"])
    (dictSet (dictPop (dictPop r "threading") "_thread") ("__original_module_" ++ "_thread")
      (origTV env r))

/-- The native `threading` module value: imported with the native
`_thread` installed in the registry first. -/
def origV (env : OrigEnv) (r : Registry) : Value :=
  env.importFn "threading" (dictSet (origRT env r) "_thread" (origTV env r))

/-- The saver accumulated by `original("threading")`. -/
def origSaved2 (r : Registry) : Saver :=
  [("threading", sysGet r "threading"),
   ("_thread", sysGet (dictPop r "threading") "_thread")]

/-- Registry state after the first `original("threading")` call. -/
def origRF (env : OrigEnv) (r : Registry) : Registry :=
  saverRestore (origSaved2 r)
    (dictSet (dictSet (origRT env r) "_thread" (origTV env r))
      ("__original_module_" ++ "threading") (origV env r))

/-- A module object: its attribute dictionary, as `getattr` / `setattr` /
`delattr` see it. -/
def ModObj : Type := String → Option Value

/-- `sys.modules` at the module-object level used by `monkey_patch`
(the `None`-marker subtleties of the registry are Model A territory). -/
def Mods : Type := String → Option ModObj

/-- `setattr(o, a, v)`. -/
def setAttr (o : ModObj) (a : String) (v : Value) : ModObj :=
  fun x => if x = a then Option.some v else o x

/-- `delattr(o, a)`. -/
def delAttr (o : ModObj) (a : String) : ModObj :=
  fun x => if x = a then Option.none else o x

/-- `sys.modules[n] = o`. -/
def setMod (m : Mods) (n : String) (o : ModObj) : Mods :=
  fun x => if x = n then Option.some o else m x

/-- A green module as the patch loop consumes it: its attributes, its
`__patched__` list, and its `__deleted__` list
(`getattr(mod, "__deleted__", [])`). -/
structure GreenMod where
  attrs : String → Option Value
  patched : List String
  deleted : List String

/-- Environment of `monkey_patch`: the `_green_*_modules()` selections per
family name, availability of the psycopg patcher, presence of
`os.register_at_fork`, `__import__` for modules absent from
`sys.modules`, the cached native module objects `original()` produces,
the native `_thread` module as an attribute value (for the
`importlib._bootstrap._thread` fixup), the patched threading module that
`inject("threading", {})` caches, and the ingredients of
`_green_existing_locks` (the `isinstance(_, rlock_type)` test and the
memoized lock upgrade). -/
structure PatchEnv where
  familyModules : String → List (String × GreenMod)
  psycopgAvailable : Bool
  registerAtFork : Bool
  importMod : String → ModObj
  nativeOrig : String → ModObj
  nativeThreadVal : Value
  patchedThreading : ModObj
  isRLock : Value → Bool
  upgradeLock : Value → Value

/-- Process-wide patcher state: `already_patched` and `sys.modules`. -/
structure PatchState where
  ap : String → Bool
  mods : Mods

/-- One attribute installation or deletion performed by the patch loop. -/
inductive Op where
  | install (moduleName attrName : String) (v : Value)
  | uninstall (moduleName attrName : String)
  deriving DecidableEq

/-- `accepted_args` of `monkey_patch`. -/
def accepted_args : List String :=
  ["os", "select", "socket", "thread", "time", "psycopg", "MySQLdb", "builtins",
   "subprocess"]

/-- Lookup in a keyword-argument dictionary. -/
def selGet (l : List (String × Bool)) (k : String) : Option Bool :=
  match l with
  | [] => Option.none
  | p :: t => if p.1 = k then Option.some p.2 else selGet t k

/-- Assignment in a keyword-argument dictionary. -/
def selSet (l : List (String × Bool)) (k : String) (v : Bool) : List (String × Bool) :=
  match l with
  | [] => [(k, v)]
  | p :: t => if p.1 = k then (k, v) :: t else p :: selSet t k v

/-- `d.pop(k, None)` on a keyword-argument dictionary. -/
def selPop (l : List (String × Bool)) (k : String) : List (String × Bool) :=
  match l with
  | [] => []
  | p :: t => if p.1 = k then selPop t k else p :: selPop t k

/-- `d.setdefault(k, v)`. -/
def selSetDefault (l : List (String × Bool)) (k : String) (v : Bool) :
    List (String × Bool) :=
  if (selGet l k).isSome then l else l ++ [(k, v)]

/-- Effect of one iteration of the `setdefault` loop on the key it
touches, and on the others. -/
def resolveStep (default_on : Bool) (acc : List (String × Bool)) (mname : String) :
    List (String × Bool) :=
  let acc1 :=
    if mname = "MySQLdb" ∨ mname = "builtins" then selSetDefault acc mname false
    else acc
  selSetDefault acc1 mname default_on

/-- The toggle-resolution prefix of `monkey_patch`: the
`__builtin__`/`builtins` assertion and rename, popping `all`, rejecting
unknown keyword names, computing the default
(`True not in on.values()`), and the `setdefault` loop with `MySQLdb`
and `builtins` opt-in-only.  The loop iterates `accepted_args` in list
order; in the source it is a set, but the per-name `setdefault`s are
independent so the resulting dictionary contents do not depend on the
iteration order. -/
def resolveSelection (sel : List (String × Bool)) :
    Except String (List (String × Bool)) :=
  if (selGet sel "__builtin__").isSome ∧ (selGet sel "builtins").isSome then
    Except.error "AssertionError"
  else
    let on1 :=
      match selGet sel "__builtin__" with
      | Option.some b => selSet (selPop sel "__builtin__") "builtins" b
      | Option.none => sel
    let defaultOn? := selGet on1 "all"
    let on2 := selPop on1 "all"
    if on2.any (fun kv => ! accepted_args.contains kv.1) then
      Except.error "TypeError: monkey_patch got an unexpected keyword argument"
    else
      let default_on := defaultOn?.getD (! on2.any (fun kv => kv.2))
      Except.ok (accepted_args.foldl (resolveStep default_on) on2)

/-- The eight families of the `modules_to_patch` loop, in source order
(`psycopg` is handled separately). -/
def familyOrder : List String :=
  ["os", "select", "socket", "thread", "time", "MySQLdb", "builtins", "subprocess"]

/-- One iteration of the family loop:
`if on[name] and not already_patched.get(name): modules_to_patch +=
modules_function(); already_patched[name] = True`. -/
def selectStep (env : PatchEnv) (R : List (String × Bool))
    (acc : List (String × GreenMod) × (String → Bool)) (f : String) :
    List (String × GreenMod) × (String → Bool) :=
  if ((selGet R f).getD false && ! acc.2 f) = true then
    (acc.1 ++ env.familyModules f, fun x => if x = f then true else acc.2 x)
  else acc

/-- The family selection loop over the eight families. -/
def selectFamilies (env : PatchEnv) (R : List (String × Bool)) (ap : String → Bool) :
    List (String × GreenMod) × (String → Bool) :=
  familyOrder.foldl (selectStep env R) ([], ap)

/-- The `__patched__` loop of the patch application:
`patched_attr = getattr(mod, attr_name, None); if patched_attr is not
None: setattr(orig_mod, attr_name, patched_attr)`.  Each performed
installation is logged. -/
def applyPatchedAttrs (gm : GreenMod) (moduleName : String) (o : ModObj) :
    ModObj × List Op :=
  gm.patched.foldl
    (fun acc a =>
      match gm.attrs a with
      | Option.some v =>
        if v = Value.pyNone then acc
        else (setAttr acc.1 a v, acc.2 ++ [Op.install moduleName a v])
      | Option.none => acc)
    (o, [])

/-- The `__deleted__` loop: `if hasattr(orig_mod, attr_name):
delattr(orig_mod, attr_name)`.  Each performed deletion is logged. -/
def applyDeletedAttrs (gm : GreenMod) (moduleName : String) (st : ModObj × List Op) :
    ModObj × List Op :=
  gm.deleted.foldl
    (fun acc a =>
      if (acc.1 a).isSome then (delAttr acc.1 a, acc.2 ++ [Op.uninstall moduleName a])
      else acc)
    st

/-- Net `sys.modules` effect of the `register_at_fork` branch for the
`threading` entry: `inject("threading", {})` caches the patched
threading module under `"__patched_module_threading"` (or returns the
cached one); the `_after_fork.__code__` wipe mutates the function object
in place and changes no `sys.modules` binding and no module attribute
slot, so it has no footprint at this level.  The full transactional
behaviour of `inject` is Model A territory. -/
def afterForkStep (env : PatchEnv) (m : Mods) : Mods :=
  if (m "__patched_module_threading").isSome then m
  else setMod m "__patched_module_threading" env.patchedThreading

/-- One iteration of the patch-application loop: fetch or import the
currently installed module object, install the `__patched__` attributes,
delete the `__deleted__` attributes, store the mutated object (in the
source the mutation is in place; `__import__` also installs the module),
and run the `register_at_fork` branch for `threading`. -/
def patchOne (env : PatchEnv) (acc : Mods × List Op) (entry : String × GreenMod) :
    Mods × List Op :=
  let o := (acc.1 entry.1).getD (env.importMod entry.1)
  let done := applyDeletedAttrs entry.2 entry.1 (applyPatchedAttrs entry.2 entry.1 o)
  let m1 := setMod acc.1 entry.1 done.1
  let m2 :=
    if entry.1 = "threading" ∧ env.registerAtFork then afterForkStep env m1 else m1
  (m2, acc.2 ++ done.2)

/-- Net `sys.modules` effect of a `original(modname)` call made by
`monkey_patch` (lines calling `original("threading")` and
`original("_thread")`): on a cache hit nothing changes; otherwise the
dependency is resolved first and both natives are cached.  The
transient save/pop/install/restore dance inside `original` is modelled
in full in Model A (`original`); `monkey_patch`'s state depends only on
this net caching effect. -/
def ensureOriginalCached (env : PatchEnv) (m : Mods) (modname : String) : Mods :=
  if (m ("__original_module_" ++ modname)).isSome then m
  else
    let m1 :=
      if hdep : (depOf modname).isSome then
        ensureOriginalCached env m ((depOf modname).get hdep)
      else m
    setMod m1 ("__original_module_" ++ modname) (env.nativeOrig modname)
termination_by depRank modname
decreasing_by
  by_cases h1 : modname = "threading"
  · subst h1
    simp [depOf, depRank]
  · by_cases h2 : modname = "queue"
    · subst h2
      simp [depOf, depRank, h1]
    · exfalso
      simp [depOf, h1, h2] at hdep

/-- `sys.modules.get(name)` falling back to `__import__(name)`. -/
def getOrImportObj (env : PatchEnv) (m : Mods) (name : String) : ModObj :=
  (m name).getD (env.importMod name)

/-- `importlib._bootstrap._thread = original("_thread")`: importlib must
use real thread locks. -/
def fixupImportlib (env : PatchEnv) (m : Mods) : Mods :=
  setMod m "importlib._bootstrap"
    (setAttr (getOrImportObj env m "importlib._bootstrap") "_thread"
      env.nativeThreadVal)

/-- An assignment of one attribute of a module to another of the same
module (`threading.RLock = threading._PyRLock`,
`queue.SimpleQueue = queue._PySimpleQueue`).  The source attribute is
always present in CPython; the read-failure path is modelled as leaving
the module unchanged. -/
def fixupSelfAttr (env : PatchEnv) (m : Mods) (modn src dst : String) : Mods :=
  let o := getOrImportObj env m modn
  match o src with
  | Option.some v => setMod m modn (setAttr o dst v)
  | Option.none => setMod m modn o

/-- The three always-on corrections, in source order. -/
def applyFixups (env : PatchEnv) (m : Mods) : Mods :=
  fixupSelfAttr env
    (fixupSelfAttr env (fixupImportlib env m) "threading" "_PyRLock" "RLock")
    "queue" "_PySimpleQueue" "SimpleQueue"

/-- What `_green_existing_locks` does to one attribute slot: replace the
value when it is an instance of the original RLock type, through the
memoized upgrade map (one replacement per distinct original, so the
upgrade is a function of the original). -/
def upgradeSlot (env : PatchEnv) (v : Value) : Value :=
  if env.isRLock v = true then env.upgradeLock v else v

/-- `_green_existing_locks` at the `sys.modules` level: every module
attribute slot holding an original-RLock instance is redirected to its
replacement.  Replacements of locks nested deeper inside objects mutate
those objects in place and change no module attribute slot; the
traversal itself is modelled in full in Model C. -/
def greenLocksPass (env : PatchEnv) (m : Mods) : Mods :=
  fun n => (m n).map (fun o => (fun a => (o a).map (upgradeSlot env)))

/-- `for name, _ in modules_to_patch: if name == "threading":
_green_existing_locks(original_rlock_type)` — one lock-upgrade pass per
`threading` entry. -/
def greenLocksFold (env : PatchEnv) (entries : List (String × GreenMod)) (m : Mods) :
    Mods :=
  entries.foldl (fun acc e => if e.1 = "threading" then greenLocksPass env acc else acc)
    m

/-- The psycopg branch: if toggled on, not yet applied, and the psycopg
patcher imports successfully, mark it applied (the
`make_psycopg_green()` call itself is external to the registry); an
`ImportError` leaves it unmarked so later calls retry. -/
def psycopgStep (env : PatchEnv) (R : List (String × Bool)) (ap : String → Bool) :
    String → Bool :=
  if ((selGet R "psycopg").getD false && ! ap "psycopg" && env.psycopgAvailable) = true
  then fun x => if x = "psycopg" then true else ap x
  else ap

/-- `monkey_patch(**on)`: resolve toggles, select not-yet-applied
families (marking them in `already_patched`), run the psycopg branch,
resolve `original("threading")`, apply the patch loop under the import
lock, resolve `original("_thread")` and apply the three always-on
fixups, and green existing locks once per `threading` entry in
`modules_to_patch`.  The initial `eventlet.hubs.get_hub()` call (hub
import) is external to this model.  The returned list logs every
attribute installation and deletion the call performed. -/
def monkey_patch (env : PatchEnv) (sel : List (String × Bool)) (s : PatchState) :
    Except String (PatchState × List Op) :=
  match resolveSelection sel with
  | Except.error e => Except.error e
  | Except.ok R =>
    let fam := selectFamilies env R s.ap
    let ap2 := psycopgStep env R fam.2
    let m1 := ensureOriginalCached env s.mods "threading"
    let pl := fam.1.foldl (patchOne env) (m1, [])
    let m3 := ensureOriginalCached env pl.1 "_thread"
    let m4 := applyFixups env m3
    let m5 := greenLocksFold env fam.1 m4
    Except.ok (⟨ap2, m5⟩, pl.2)

/-- Argument of `is_monkey_patched`: a module name or a module object
(with its `__name__`, when it has one). -/
inductive PyRef where
  | str (s : String)
  | module (nm : Option String)

/-- `getattr(module, "__name__", None)`: strings have no `__name__`. -/
def refName (m : PyRef) : Option String :=
  match m with
  | PyRef.str _ => Option.none
  | PyRef.module nm => nm

/-- `module in already_patched`: a dictionary keyed by strings, so only
a string argument can match. -/
def refKeyIn (ap : String → Bool) (m : PyRef) : Bool :=
  match m with
  | PyRef.str s => ap s
  | PyRef.module _ => false

/-- `is_monkey_patched(module)`:
`module in already_patched or getattr(module, "__name__", None) in
already_patched`. -/
def is_monkey_patched (ap : String → Bool) (m : PyRef) : Bool :=
  refKeyIn ap m ||
    (match refName m with
     | Option.some s => ap s
     | Option.none => false)

/-- State of the three fixup targets after the always-on corrections
have run once: `importlib._bootstrap._thread` holds the native thread
module, and the copied attribute pairs of `threading` and `queue` agree
(or the source attribute is absent, in which case the fixup was a
no-op). -/
def FixupsInv (env : PatchEnv) (m : Mods) : Prop :=
  (∃ o, m "importlib._bootstrap" = Option.some o ∧
    o "_thread" = Option.some env.nativeThreadVal) ∧
  (∃ t, m "threading" = Option.some t ∧
    (t "RLock" = t "_PyRLock" ∨ t "_PyRLock" = Option.none)) ∧
  (∃ q, m "queue" = Option.some q ∧
    (q "SimpleQueue" = q "_PySimpleQueue" ∨ q "_PySimpleQueue" = Option.none))

/-- Concrete environment for the C10 scenario: the thread family
installs a `threading` component with one patched attribute. -/
def c10env : PatchEnv :=
  ⟨fun f => if f = "thread" then
      [("threading", ⟨fun a => if a = "Lock" then Option.some (Value.atom 7)
        else Option.none, ["Lock"], []⟩)] else [],
    true, true, fun _ => (fun _ => Option.none),
    fun _ => (fun _ => Option.none), Value.atom 0,
    (fun _ => Option.none), fun _ => false, id⟩

/-- Result of applying the thread family from a fresh state. -/
def c10res : Except String (PatchState × List Op) :=
  monkey_patch c10env [("thread", true)] ⟨fun _ => false, fun _ => Option.none⟩

/-- The state after the C10 run. -/
def c10state : PatchState :=
  match c10res with
  | Except.ok (s, _) => s
  | Except.error _ => ⟨fun _ => false, fun _ => Option.none⟩

/-- The operations performed by the C10 run. -/
def c10ops : List Op :=
  match c10res with
  | Except.ok (_, ops) => ops
  | Except.error _ => []

/-- An object identity (`id(obj)`). -/
abbrev Ref := Nat

/-- The heap data of one Python object, as the traversal classifies it:
a dict (values traversable by key), a list (elements traversable by
index), a plain object (`vars()` succeeds; attributes traversable by
name), an instance of the target class `klass` (an RLock: no
traversable references of its own), an object whose evaluation raises
(e.g. a dead weak proxy, where `isinstance` or attribute access raises
mid-traversal), or an atom (no `__dict__`: `vars` raises `TypeError`,
which the source swallows).  The kinds are mutually exclusive, as the
`isinstance(container, dict)` / `isinstance(container, list)` /
`vars(container)` dispatch is for the involved types. -/
inductive ObjData where
  | dictObj (slots : List (String × Ref))
  | listObj (slots : List Ref)
  | plainObj (slots : List (String × Ref))
  | lockObj
  | badObj
  | atomObj
  deriving DecidableEq

/-- A finite object heap: identity to object data. -/
abbrev Heap := List (Ref × ObjData)

/-- Dereference an identity. -/
def heapGet (h : Heap) (r : Ref) : Option ObjData :=
  match h with
  | [] => Option.none
  | p :: t => if p.1 = r then Option.some p.2 else heapGet t r

/-- Update of one dict slot inside an object. -/
def dictSlotUpdate (k : String) (new : Ref) : ObjData → ObjData
  | ObjData.dictObj slots =>
    ObjData.dictObj (slots.map (fun q => if q.1 = k then (q.1, new) else q))
  | d => d

/-- Update of one list slot inside an object. -/
def listSlotUpdate (i : Nat) (new : Ref) : ObjData → ObjData
  | ObjData.listObj slots => ObjData.listObj (slots.set i new)
  | d => d

/-- Update of one attribute slot inside an object. -/
def plainSlotUpdate (k : String) (new : Ref) : ObjData → ObjData
  | ObjData.plainObj slots =>
    ObjData.plainObj (slots.map (fun q => if q.1 = k then (q.1, new) else q))
  | d => d

/-- `container[k] = new` on a dict object. -/
def heapSetDict (h : Heap) (c : Ref) (k : String) (new : Ref) : Heap :=
  h.map (fun p => if p.1 = c then (p.1, dictSlotUpdate k new p.2) else p)

/-- `container[i] = new` on a list object. -/
def heapSetList (h : Heap) (c : Ref) (i : Nat) (new : Ref) : Heap :=
  h.map (fun p => if p.1 = c then (p.1, listSlotUpdate i new p.2) else p)

/-- `setattr(container, k, new)` on a plain object. -/
def heapSetPlain (h : Heap) (c : Ref) (k : String) (new : Ref) : Heap :=
  h.map (fun p => if p.1 = c then (p.1, plainSlotUpdate k new p.2) else p)

/-- The upgrade function environment: `upgrade(old)` produces the
replacement for `old`; modelled as a function of the original identity
and of the number of upgrade calls made so far, so that a
double invocation on the same original would be observable. -/
structure UpEnv where
  newRef : Ref → Nat → Ref

/-- Traversal state: the (mutated) heap, the identity-keyed `visited`
map (in entry order, so it doubles as the entry log), the
`old_to_new` memo table (in upgrade-call order, so its keys double as
the upgrade-call log), the log of slot replacements performed (original,
replacement), and the count of logged warnings. -/
structure UpState where
  heap : Heap
  visited : List Ref
  o2n : List (Ref × Ref)
  writes : List (Ref × Ref)
  warns : Nat

/-- Result of one `_upgrade_instances` activation: normal return, an
escaping Python exception, or fuel exhaustion (a modelling artifact:
the termination theorem shows sufficient fuel is never exhausted). -/
inductive UpRes where
  | ok (st : UpState)
  | err (st : UpState)
  | fuelOut (st : UpState)

/-- Result of `upgrade_or_traverse`: a normal return carrying the
optional replacement, an escaping exception, or fuel exhaustion. -/
inductive UotRes where
  | val (rep : Option Ref) (st : UpState)
  | err (st : UpState)
  | fuelOut (st : UpState)

/-- `old_to_new` lookup (`obj in old_to_new` / `old_to_new[obj]`;
RLock equality is identity). -/
def o2nGet (l : List (Ref × Ref)) (r : Ref) : Option Ref :=
  match l with
  | [] => Option.none
  | p :: t => if p.1 = r then Option.some p.2 else o2nGet t r

mutual

/-- `_upgrade_instances(container, klass, upgrade, visited, old_to_new)`:
mark the container visited, then walk its dict values, or its list
elements, or (when `vars()` succeeds) its attributes — the attribute
walk runs under the bare `except:` that logs a warning and gives up on
the remaining attributes of this container only.  Objects whose
evaluation raises propagate the exception; atoms and locks have nothing
to walk into (`vars` raises `TypeError`, swallowed). -/
def visitC (env : UpEnv) (fuel : Nat) (st : UpState) (c : Ref) : UpRes :=
  match fuel with
  | 0 => UpRes.fuelOut st
  | Nat.succ f =>
    let st1 : UpState := { st with visited := st.visited ++ [c] }
    match heapGet st.heap c with
    | Option.some (ObjData.dictObj slots) => dictLoop env f st1 c slots
    | Option.some (ObjData.listObj slots) => listLoop env f st1 c 0 slots
    | Option.some (ObjData.plainObj slots) =>
      match attrsLoop env f st1 c slots with
      | UpRes.err st2 => UpRes.ok { st2 with warns := st2.warns + 1 }
      | r => r
    | Option.some ObjData.badObj => UpRes.err st1
    | _ => UpRes.ok st1
termination_by (fuel, 0, 0)

/-- `for k, v in list(container.items()): new = upgrade_or_traverse(v);
if new is not None: container[k] = new` — unprotected: an exception
propagates. -/
def dictLoop (env : UpEnv) (fuel : Nat) (st : UpState) (c : Ref)
    (slots : List (String × Ref)) : UpRes :=
  match slots with
  | [] => UpRes.ok st
  | p :: rest =>
    match uot env fuel st p.2 with
    | UotRes.val Option.none st2 => dictLoop env fuel st2 c rest
    | UotRes.val (Option.some new) st2 =>
      dictLoop env fuel
        { st2 with heap := heapSetDict st2.heap c p.1 new,
                   writes := st2.writes ++ [(p.2, new)] } c rest
    | UotRes.err st2 => UpRes.err st2
    | UotRes.fuelOut st2 => UpRes.fuelOut st2
termination_by (fuel, 2, slots.length)

/-- `for i, v in enumerate(container): ... container[i] = new` —
unprotected: an exception propagates. -/
def listLoop (env : UpEnv) (fuel : Nat) (st : UpState) (c : Ref) (i : Nat)
    (slots : List Ref) : UpRes :=
  match slots with
  | [] => UpRes.ok st
  | v :: rest =>
    match uot env fuel st v with
    | UotRes.val Option.none st2 => listLoop env fuel st2 c (i + 1) rest
    | UotRes.val (Option.some new) st2 =>
      listLoop env fuel
        { st2 with heap := heapSetList st2.heap c i new,
                   writes := st2.writes ++ [(v, new)] } c (i + 1) rest
    | UotRes.err st2 => UpRes.err st2
    | UotRes.fuelOut st2 => UpRes.fuelOut st2
termination_by (fuel, 2, slots.length)

/-- `for k, v in list(container_vars.items()): ... setattr(container, k,
new)` — the caller wraps this loop in the bare `except:`. -/
def attrsLoop (env : UpEnv) (fuel : Nat) (st : UpState) (c : Ref)
    (slots : List (String × Ref)) : UpRes :=
  match slots with
  | [] => UpRes.ok st
  | p :: rest =>
    match uot env fuel st p.2 with
    | UotRes.val Option.none st2 => attrsLoop env fuel st2 c rest
    | UotRes.val (Option.some new) st2 =>
      attrsLoop env fuel
        { st2 with heap := heapSetPlain st2.heap c p.1 new,
                   writes := st2.writes ++ [(p.2, new)] } c rest
    | UotRes.err st2 => UpRes.err st2
    | UotRes.fuelOut st2 => UpRes.fuelOut st2
termination_by (fuel, 2, slots.length)

/-- `upgrade_or_traverse(obj)`: already-visited identities are skipped;
evaluating an invalid object raises; a `klass` instance is replaced by
its memoized upgrade (calling `upgrade` only on the first encounter);
anything else is traversed (and never replaced). -/
def uot (env : UpEnv) (fuel : Nat) (st : UpState) (obj : Ref) : UotRes :=
  if obj ∈ st.visited then UotRes.val Option.none st
  else
    match heapGet st.heap obj with
    | Option.some ObjData.badObj => UotRes.err st
    | Option.some ObjData.lockObj =>
      match o2nGet st.o2n obj with
      | Option.some n => UotRes.val (Option.some n) st
      | Option.none =>
        let n := env.newRef obj st.o2n.length
        UotRes.val (Option.some n) { st with o2n := st.o2n ++ [(obj, n)] }
    | _ =>
      match visitC env fuel st obj with
      | UpRes.ok st2 => UotRes.val Option.none st2
      | UpRes.err st2 => UotRes.err st2
      | UpRes.fuelOut st2 => UotRes.fuelOut st2
termination_by (fuel, 1, 0)

end

/-- The state carried by any traversal result. -/
def resState : UpRes → UpState
  | UpRes.ok st => st
  | UpRes.err st => st
  | UpRes.fuelOut st => st

/-- The state carried by any `upgrade_or_traverse` result. -/
def resStateU : UotRes → UpState
  | UotRes.val _ st => st
  | UotRes.err st => st
  | UotRes.fuelOut st => st

/-- Whether a result is fuel exhaustion. -/
def isFuelOut : UpRes → Bool
  | UpRes.fuelOut _ => true
  | _ => false

/-- Whether a result is an escaping exception. -/
def isErr : UpRes → Bool
  | UpRes.err _ => true
  | _ => false

/-- The identities one object directly references through traversable
slots. -/
def slotRefs : ObjData → List Ref
  | ObjData.dictObj slots => slots.map Prod.snd
  | ObjData.listObj slots => slots
  | ObjData.plainObj slots => slots.map Prod.snd
  | _ => []

/-- All identities mentioned by a heap: its keys and every slot
reference. -/
def refUniverse (h : Heap) : Finset Ref :=
  h.foldr (fun p acc => insert p.1 (acc ∪ (slotRefs p.2).toFinset)) ∅

/-- The slots of every not-yet-visited container stay inside the
universe `U`: the traversal rewrites slots only of containers it has
already marked visited. -/
def UpInv (U : Finset Ref) (st : UpState) : Prop :=
  ∀ r d, heapGet st.heap r = Option.some d → r ∉ st.visited →
    ∀ x ∈ slotRefs d, x ∈ U

/-- Memo-table sanity: `old_to_new` has one entry per original (its keys
are the upgrade-call log), and every logged slot replacement is an entry
of `old_to_new`. -/
def WFmemo (st : UpState) : Prop :=
  (st.o2n.map Prod.fst).Nodup ∧ ∀ p ∈ st.writes, p ∈ st.o2n

/-- How the traversal state evolves across any activation: the visited
list grows by a duplicate-free block of previously unvisited
identities, the memo table only grows, memo sanity is preserved, and
the slot-universe invariant is preserved. -/
structure StepOk (st st2 : UpState) : Prop where
  vis : ∃ dv, st2.visited = st.visited ++ dv ∧ dv.Nodup ∧ ∀ x ∈ dv, x ∉ st.visited
  o2nExt : ∃ dn, st2.o2n = st.o2n ++ dn
  wf : WFmemo st → WFmemo st2
  inv : ∀ U, UpInv U st → UpInv U st2

/-- Number of universe identities not yet visited. -/
def mU (U : Finset Ref) (st : UpState) : Nat :=
  (U \ st.visited.toFinset).card

/-- Whether an `upgrade_or_traverse` result is fuel exhaustion. -/
def isFuelOutU : UotRes → Bool
  | UotRes.fuelOut _ => true
  | _ => false

/- ### Model D: _convert_py3_rlock (patcher.py lines 648-679)

A native reentrant lock is an owner (thread identity, None when free)
plus a recursion count.  old._is_owned() asks whether the CURRENT
native thread owns it; old.release() decrements the count and clears
the owner when the count reaches zero.  threading._PyRLock is a pure
Python reentrant lock: a low-level one-shot lock handle (_block), an
owner and a count; its acquire() bumps the count when the caller
already owns it, and otherwise acquires the handle and takes ownership
with count 1 (we model a blocking acquire of an already-held handle as
Option.none; it is provably never reached here).  The low-level handle
is tagged native or green so that "new._block = allocate_lock()" --
the eventlet cooperative lock -- is observable.  The identity that
old._is_owned compares against (nativeMe), the one _PyRLock.acquire
sees (pyMe) and the green ident written by the final pin (tid) are
kept distinct parameters.  The hasattr(_block)/hasattr(_owner) probe
of the freshly built _PyRLock is an environment flag. -/
structure OldRLock where
  owner : Option Nat
  count : Nat
deriving DecidableEq, Repr

inductive LowLock where
  | nativeL (locked : Bool)
  | greenL (locked : Bool)
deriving DecidableEq, Repr

structure PyRLock where
  block : LowLock
  owner : Option Nat
  count : Nat
deriving DecidableEq, Repr

structure ConvEnv where
  pyRLockHasInternals : Bool

def oldIsOwned (me : Nat) (l : OldRLock) : Bool :=
  l.owner == some me

def oldRelease (l : OldRLock) : OldRLock :=
  if l.count ≤ 1 then ⟨none, 0⟩ else ⟨l.owner, l.count - 1⟩

def lowAcquire : LowLock → Option LowLock
  | LowLock.nativeL false => some (LowLock.nativeL true)
  | LowLock.greenL false => some (LowLock.greenL true)
  | _ => none

def pyAcquire (me : Nat) (l : PyRLock) : Option PyRLock :=
  if l.owner == some me then some { l with count := l.count + 1 }
  else
    match lowAcquire l.block with
    | some b2 => some ⟨b2, some me, 1⟩
    | none => none

/-- The while loop of _convert_py3_rlock: while old._is_owned():
old.release(); new.acquire(); acquired = True.  Returns the final
old lock, the new lock, the acquired flag, and how many times the
original was released. -/
def convertLoop (nativeMe pyMe : Nat) (old : OldRLock) (new : PyRLock)
    (acq : Bool) (rels : Nat) : Option (OldRLock × PyRLock × Bool × Nat) :=
  if h : oldIsOwned nativeMe old = true then
    match pyAcquire pyMe new with
    | some new2 => convertLoop nativeMe pyMe (oldRelease old) new2 true (rels + 1)
    | none => none
  else some (old, new, acq, rels)
termination_by old.count * 2 + (if oldIsOwned nativeMe old then 1 else 0)
decreasing_by
  simp only [oldRelease, oldIsOwned] at *
  by_cases hc : old.count ≤ 1 <;> (simp [hc, h]; try omega)

/-- _convert_py3_rlock(old, tid).  Besides the new lock we return the
final state of the original and the number of releases performed on
it, so the transfer can be stated.  The second "if old._is_owned()"
after the loop is kept from the source even though the loop guard just
failed. -/
def convert_py3_rlock (env : ConvEnv) (old : OldRLock) (nativeMe pyMe tid : Nat) :
    Except String (OldRLock × PyRLock × Nat) :=
  let new0 : PyRLock := ⟨LowLock.nativeL false, none, 0⟩
  if env.pyRLockHasInternals = false then
    Except.error "INTERNAL BUG. Perhaps you are using a major version of Python that is unsupported by eventlet?"
  else
    let new1 : PyRLock := { new0 with block := LowLock.greenL false }
    match convertLoop nativeMe pyMe old new1 false 0 with
    | none => Except.error "blocked"
    | some (old2, new2, acquired, rels) =>
      match (if oldIsOwned nativeMe old2 then
               match pyAcquire pyMe new2 with
               | some n3 => some (n3, true)
               | none => none
             else some (new2, acquired)) with
      | none => Except.error "blocked"
      | some (new3, acq2) =>
        let new4 := if acq2 then { new3 with owner := some tid } else new3
        Except.ok (old2, new4, rels)

/-- Recursion depth held by a given thread: the count if that thread
is the owner, else 0. -/
def heldBy (me : Nat) (l : OldRLock) : Nat :=
  if l.owner == some me then l.count else 0

/-- Shape of the new lock after k acquisitions by pyMe starting from
the fresh green-handled _PyRLock. -/
def newShape (pyMe k : Nat) : PyRLock :=
  if k = 0 then ⟨LowLock.greenL false, none, 0⟩ else ⟨LowLock.greenL true, some pyMe, k⟩

/-! ### Theorems -/

@[simp]
theorem dictGet_dictSet (r : Registry) (k : String) (v : Value) (m : String) :
    dictGet (dictSet r k v) m = if m = k then Option.some v else dictGet r m := by
  induction r with
  | nil =>
    by_cases h : m = k
    · subst h
      simp [dictSet, dictGet]
    · have hk : ¬ k = m := fun hh => h hh.symm
      simp [dictSet, dictGet, h, hk]
  | cons p t ih =>
    by_cases hp : p.1 = k
    · rw [show dictSet (p :: t) k v = (k, v) :: t from by simp [dictSet, hp]]
      by_cases h : m = k
      · subst h
        simp [dictGet]
      · have hk : ¬ k = m := fun hh => h hh.symm
        have hpm : ¬ p.1 = m := by rw [hp]; exact hk
        simp [dictGet, hk, h, hpm]
    · rw [show dictSet (p :: t) k v = p :: dictSet t k v from by simp [dictSet, hp]]
      by_cases hm : p.1 = m
      · have h : ¬ m = k := fun hh => hp (hm.trans hh)
        simp [dictGet, hm, h]
      · simp [dictGet, hm, ih]

@[simp]
theorem dictGet_dictPop (r : Registry) (k : String) (m : String) :
    dictGet (dictPop r k) m = if m = k then Option.none else dictGet r m := by
  induction r with
  | nil => by_cases h : m = k <;> simp [dictPop, dictGet, h]
  | cons p t ih =>
    by_cases hp : p.1 = k
    · rw [show dictPop (p :: t) k = dictPop t k from by simp [dictPop, hp]]
      by_cases h : m = k
      · subst h
        simp [ih]
      · have hpm : ¬ p.1 = m := by rw [hp]; exact fun hh => h hh.symm
        simp [ih, h, dictGet, hpm]
    · rw [show dictPop (p :: t) k = p :: dictPop t k from by simp [dictPop, hp]]
      by_cases hm : p.1 = m
      · have h : ¬ m = k := fun hh => hp (hm.trans hh)
        simp [dictGet, hm, h]
      · simp [dictGet, hm, ih]

theorem saverRestore_get (s : Saver) (r : Registry) (m : String) :
    dictGet (saverRestore s r) m =
      match savedLast s m with
      | Option.some v => stepVal v
      | Option.none => dictGet r m := by
  induction s generalizing r with
  | nil => simp [saverRestore, savedLast]
  | cons p t ih =>
    have hstep : saverRestore (p :: t) r =
        saverRestore t
          (if p.2 = Value.pyNone then dictPop r p.1 else dictSet r p.1 p.2) := by
      simp [saverRestore]
    rw [hstep, ih]
    cases hs : savedLast t m with
    | some v => simp [savedLast, hs]
    | none =>
      by_cases hm : p.1 = m
      · subst hm
        by_cases hv : p.2 = Value.pyNone <;>
          simp [savedLast, hs, hv, stepVal]
      · have hm2 : ¬ m = p.1 := fun h => hm h.symm
        by_cases hv : p.2 = Value.pyNone <;>
          simp [savedLast, hs, hm, hm2, hv]

theorem savedLast_mem (s : Saver) (m : String) (v : Value)
    (h : savedLast s m = Option.some v) : (m, v) ∈ s := by
  induction s with
  | nil => simp [savedLast] at h
  | cons p t ih =>
    cases hs : savedLast t m with
    | some w =>
      simp only [savedLast, hs] at h
      exact List.mem_cons_of_mem _ (ih (hs.trans (by rw [h])))
    | none =>
      simp only [savedLast, hs] at h
      by_cases hp : p.1 = m
      · simp only [hp, if_pos] at h
        have hpv : p = (m, v) := by
          cases p with
          | mk a b =>
            simp only [Option.some.injEq] at h
            simp only [Prod.mk.injEq]
            exact ⟨hp, h⟩
        rw [show ((m, v) : String × Value) = p from hpv.symm]
        exact List.mem_cons_self p t
      · simp [hp] at h

theorem mem_savedInsert (s : Saver) (k : String) (v : Value) (p : String × Value)
    (h : p ∈ savedInsert s k v) : p = (k, v) ∨ p ∈ s := by
  induction s with
  | nil => simp [savedInsert] at h; simp [h]
  | cons q t ih =>
    by_cases hq : q.1 = k
    · simp [savedInsert, hq] at h
      rcases h with h | h
      · simp [h]
      · right; exact List.mem_cons_of_mem _ h
    · simp [savedInsert, hq] at h
      rcases h with h | h
      · right; simp [h]
      · rcases ih h with h2 | h2
        · simp [h2]
        · right; exact List.mem_cons_of_mem _ h2

theorem savedLast_savedInsert_isSome (s : Saver) (k : String) (v : Value) (m : String)
    (h : m = k ∨ (savedLast s m).isSome) :
    (savedLast (savedInsert s k v) m).isSome := by
  induction s with
  | nil =>
    rcases h with h | h
    · subst h
      simp [savedInsert, savedLast]
    · simp [savedLast] at h
  | cons q t ih =>
    by_cases hq : q.1 = k
    · rw [show savedInsert (q :: t) k v = (k, v) :: t from by simp [savedInsert, hq]]
      simp only [savedLast]
      cases hs : savedLast t m with
      | some w => simp
      | none =>
        rcases h with h | h
        · simp [h.symm]
        · simp only [savedLast, hs] at h
          by_cases hm : q.1 = m
          · simp [(hq.symm.trans hm).symm]
          · simp [hm] at h
    · rw [show savedInsert (q :: t) k v = q :: savedInsert t k v from by
        simp [savedInsert, hq]]
      simp only [savedLast]
      cases hs : savedLast (savedInsert t k v) m with
      | some w => simp
      | none =>
        rcases h with h | h
        · have := ih (Or.inl h)
          rw [hs] at this
          simp at this
        · simp only [savedLast] at h
          cases hs2 : savedLast t m with
          | some w =>
            have := ih (Or.inr (by simp [hs2]))
            rw [hs] at this
            simp at this
          | none =>
            rw [hs2] at h
            by_cases hm : q.1 = m
            · simp [hm]
            · simp [hm] at h

theorem mem_saverSave (s : Saver) (r : Registry) (names : List String)
    (p : String × Value) (h : p ∈ saverSave s r names) :
    p ∈ s ∨ (p.1 ∈ names ∧ p.2 = sysGet r p.1) := by
  induction names generalizing s with
  | nil => exact Or.inl h
  | cons n t ih =>
    have h2 := ih (savedInsert s n (sysGet r n)) h
    rcases h2 with h2 | h2
    · rcases mem_savedInsert s n (sysGet r n) p h2 with h3 | h3
      · right
        constructor
        · rw [show p.1 = n from by rw [h3]]
          exact List.mem_cons_self n t
        · rw [h3]
      · exact Or.inl h3
    · exact Or.inr ⟨List.mem_cons_of_mem n h2.1, h2.2⟩

theorem savedLast_saverSave_isSome (s : Saver) (r : Registry) (names : List String)
    (m : String) (h : m ∈ names ∨ (savedLast s m).isSome) :
    (savedLast (saverSave s r names) m).isSome := by
  induction names generalizing s with
  | nil =>
    rcases h with h | h
    · simp at h
    · exact h
  | cons n t ih =>
    show (savedLast (saverSave (savedInsert s n (sysGet r n)) r t) m).isSome
    rcases h with h | h
    · rcases List.mem_cons.mp h with h2 | h2
      · exact ih _ (Or.inr (savedLast_savedInsert_isSome s n _ m (Or.inl h2)))
      · exact ih _ (Or.inl h2)
    · exact ih _ (Or.inr (savedLast_savedInsert_isSome s n _ m (Or.inr h)))

theorem saverSave_consistent (s : Saver) (r : Registry) (names : List String)
    (hc : SaverConsistent r s) : SaverConsistent r (saverSave s r names) := by
  intro p hp
  rcases mem_saverSave s r names p hp with h | h
  · exact hc p h
  · exact h.2

/-- Core restoration property: restoring a saver that is consistent with
registry `r` onto any registry `r0` leaves, at every key the saver
covers, exactly the binding `r` had — provided `r` does not use the
`None` marker as a real binding at that key. -/
theorem restore_of_consistent (r r0 : Registry) (s : Saver)
    (hc : SaverConsistent r s) (m : String)
    (hm : dictGet r m ≠ Option.some Value.pyNone) :
    dictGet (saverRestore s r0) m =
      if (savedLast s m).isSome then dictGet r m else dictGet r0 m := by
  rw [saverRestore_get]
  cases hs : savedLast s m with
  | some v =>
    have hv : v = sysGet r m := hc (m, v) (savedLast_mem s m v hs)
    simp only [Option.isSome_some, if_pos]
    cases hg : dictGet r m with
    | some w =>
      have hw : w ≠ Value.pyNone := fun h => hm (by rw [hg, h])
      simp [stepVal, hv, sysGet, hg, hw]
    | none => simp [stepVal, hv, sysGet, hg]
  | none => simp

/-- C2: capturing a snapshot of any set of names and immediately
restoring it returns the registry, pointwise, to its pre-capture state:
names bound (to any non-marker value) stay bound to the same value, and
absent names stay absent.  The hypothesis makes the claim's proviso
explicit: the absent marker (`None`) is distinct from every real
binding among the saved names. -/
theorem saver_roundtrip (r : Registry) (names : List String)
    (hm : ∀ n ∈ names, dictGet r n ≠ Option.some Value.pyNone) :
    ∀ m, dictGet (saverRestore (saverSave [] r names) r) m = dictGet r m := by
  intro m
  by_cases hmem : (savedLast (saverSave [] r names) m).isSome
  · by_cases hmn : dictGet r m = Option.some Value.pyNone
    · exfalso
      rcases Option.isSome_iff_exists.mp hmem with ⟨v, hv⟩
      rcases mem_saverSave [] r names (m, v) (savedLast_mem _ m v hv) with h | h
      · simp at h
      · exact hm m h.1 hmn
    · rw [restore_of_consistent r r (saverSave [] r names)
        (saverSave_consistent [] r names (by intro p hp; simp at hp)) m hmn]
      simp [hmem]
  · rw [saverRestore_get]
    cases hs : savedLast (saverSave [] r names) m with
    | some v => rw [hs] at hmem; simp at hmem
    | none => simp

/-- Witness for C2 at a concrete registry and name set: one bound name,
one absent name. -/
theorem saver_roundtrip_witness :
    (∀ n ∈ ["a", "b"], dictGet [("a", Value.atom 1)] n ≠ Option.some Value.pyNone) ∧
      ∀ m, dictGet
          (saverRestore (saverSave [] [("a", Value.atom 1)] ["a", "b"])
            [("a", Value.atom 1)]) m =
        dictGet [("a", Value.atom 1)] m :=
  ⟨by decide, saver_roundtrip [("a", Value.atom 1)] ["a", "b"] (by decide)⟩

/-! ### `inject`: transactional override-import-restore -/

theorem injectSaved_consistent (mn : String) (adds : List (String × Value))
    (r : Registry) : SaverConsistent r (injectSaved mn adds r) :=
  saverSave_consistent _ r [mn]
    (saverSave_consistent [] r (adds.map Prod.fst) (by intro p hp; simp at hp))

theorem injectSaved_covers (mn : String) (adds : List (String × Value))
    (r : Registry) (m : String) (h : m = mn ∨ m ∈ adds.map Prod.fst) :
    (savedLast (injectSaved mn adds r) m).isSome := by
  rcases h with h | h
  · exact savedLast_saverSave_isSome _ r [mn] m (Or.inl (by simp [h]))
  · exact savedLast_saverSave_isSome _ r [mn] m
      (Or.inr (savedLast_saverSave_isSome [] r (adds.map Prod.fst) m (Or.inl h)))

/-- C3: when the import step of `inject` raises, the error propagates to
the caller and the snapshot is still restored: afterwards, every
overridden name and the target name itself are bound exactly as before
the call (names absent before are absent again), regardless of how the
failing import mutated the registry. -/
theorem inject_error_restores (dg : List (String × Value)) (mn : String)
    (additional : List (String × Value))
    (importFn : Registry → (Except String Value) × Registry) (r : Registry)
    (e : String) (r4 : Registry)
    (hnp : dictGet r ("__patched_module_" ++ mn) = Option.none)
    (himp : importFn (injectPre mn (if additional.isEmpty then dg else additional) r)
        = (Except.error e, r4))
    (hma : ∀ p ∈ (if additional.isEmpty then dg else additional),
        dictGet r p.1 ≠ Option.some Value.pyNone)
    (hmn : dictGet r mn ≠ Option.some Value.pyNone) :
    (inject dg mn additional importFn r).1 = Except.error e ∧
      (∀ p ∈ (if additional.isEmpty then dg else additional),
        dictGet (inject dg mn additional importFn r).2 p.1 = dictGet r p.1) ∧
      dictGet (inject dg mn additional importFn r).2 mn = dictGet r mn := by
  have hres : inject dg mn additional importFn r =
      (Except.error e,
        saverRestore
          (injectSaved mn (if additional.isEmpty then dg else additional) r) r4) := by
    rw [inject]
    rw [hnp]
    simp only [himp]
  refine ⟨by rw [hres], ?_, ?_⟩
  · intro p hp
    rw [hres]
    rw [restore_of_consistent r r4 _ (injectSaved_consistent mn _ r) p.1 (hma p hp)]
    rw [if_pos (injectSaved_covers mn _ r p.1
      (Or.inr (List.mem_map_of_mem Prod.fst hp)))]
  · rw [hres]
    rw [restore_of_consistent r r4 _ (injectSaved_consistent mn _ r) mn hmn]
    rw [if_pos (injectSaved_covers mn _ r mn (Or.inl rfl))]

/-- Witness for C3: inject a module whose import always fails, with one
override over a previously bound name and one over a previously absent
name; the bindings come back and the error surfaces. -/
theorem inject_error_restores_witness :
    (dictGet [("dep", Value.atom 5)] "__patched_module_target" = Option.none) ∧
      ((fun _ : Registry => ((Except.error "boom" : Except String Value),
          ([("junk", Value.atom 9)] : Registry)))
        (injectPre "target"
          (if ([("dep", Value.atom 7), ("extra", Value.atom 8)] :
              List (String × Value)).isEmpty
           then [] else [("dep", Value.atom 7), ("extra", Value.atom 8)])
          [("dep", Value.atom 5)])
        = (Except.error "boom", [("junk", Value.atom 9)])) ∧
      (inject [] "target" [("dep", Value.atom 7), ("extra", Value.atom 8)]
          (fun _ => (Except.error "boom", [("junk", Value.atom 9)]))
          [("dep", Value.atom 5)]).1 = Except.error "boom" ∧
      (∀ p ∈ (if ([("dep", Value.atom 7), ("extra", Value.atom 8)] :
              List (String × Value)).isEmpty
           then ([] : List (String × Value))
           else [("dep", Value.atom 7), ("extra", Value.atom 8)]),
        dictGet (inject [] "target" [("dep", Value.atom 7), ("extra", Value.atom 8)]
            (fun _ => (Except.error "boom", [("junk", Value.atom 9)]))
            [("dep", Value.atom 5)]).2 p.1 = dictGet [("dep", Value.atom 5)] p.1) ∧
      dictGet (inject [] "target" [("dep", Value.atom 7), ("extra", Value.atom 8)]
          (fun _ => (Except.error "boom", [("junk", Value.atom 9)]))
          [("dep", Value.atom 5)]).2 "target" = dictGet [("dep", Value.atom 5)] "target" := by
  refine ⟨by decide, rfl, ?_⟩
  have h := inject_error_restores [] "target"
    [("dep", Value.atom 7), ("extra", Value.atom 8)]
    (fun _ => (Except.error "boom", [("junk", Value.atom 9)]))
    [("dep", Value.atom 5)] "boom" [("junk", Value.atom 9)]
    (by decide) rfl (by decide) (by decide)
  exact h


/-! ### `original`: the native-module cache -/

theorem origKey_ne (m : String) : "__original_module_" ++ m ≠ m := by
  intro h
  have h2 := congrArg String.length h
  rw [String.length_append] at h2
  have h3 : ("__original_module_" : String).length = 18 := rfl
  omega

theorem original_nodep (env : OrigEnv) (modname : String) (r : Registry)
    (hdep : depOf modname = Option.none)
    (hkey : dictGet r ("__original_module_" ++ modname) = Option.none)
    (hq : ¬ (modname = "Queue" ∨ modname = "queue")) :
    original env modname r =
      (env.importFn modname (dictPop r modname),
       saverRestore (saverSave [] r [modname])
         (dictSet (dictPop r modname) ("__original_module_" ++ modname)
           (env.importFn modname (dictPop r modname))),
       [modname]) := by
  rw [original]
  rw [hkey]
  simp only [hdep, hq, Option.isSome_none, Bool.false_eq_true, dite_false, false_and,
    if_false, List.nil_append]
  rw [saverRestore_get]
  have hne : modname ≠ "__original_module_" ++ modname := Ne.symm (origKey_ne modname)
  simp [saverSave, savedInsert, savedLast, hne]

theorem original_threading_eq (env : OrigEnv) (r : Registry)
    (h1 : dictGet r "__original_module_threading" = Option.none)
    (h2 : dictGet r "__original_module__thread" = Option.none) :
    original env "threading" r = (origV env r, origRF env r, ["_thread", "threading"]) := by
  have hk1 : dictGet r ("__original_module_" ++ "threading") = Option.none := h1
  have hkey1 : dictGet (dictPop r "threading") ("__original_module_" ++ "_thread")
      = Option.none := by
    have h2b : dictGet r ("__original_module_" ++ "_thread") = Option.none := h2
    rw [dictGet_dictPop]
    simp [h2b, h2]
  have hinner := original_nodep env "_thread" (dictPop r "threading") (by decide)
    hkey1 (by decide)
  have hsv : saverSave (saverSave [] r ["threading"]) (dictPop r "threading") ["_thread"]
      = origSaved2 r := by
    simp [saverSave, savedInsert, origSaved2]
  have hlast : savedLast (origSaved2 r) ("__original_module_" ++ "threading")
      = Option.none := by
    simp [origSaved2, savedLast]
  have hval : dictGet (origRF env r) ("__original_module_" ++ "threading")
      = Option.some (origV env r) := by
    rw [origRF, saverRestore_get, hlast]
    simp
  conv_lhs => rw [original]
  rw [hk1]
  simp only [show depOf "threading" = Option.some "_thread" from rfl,
    Option.isSome_some, Option.get_some, dite_true]
  rw [hinner]
  simp only [show (("threading" : String) = "Queue" ∨ ("threading" : String) = "queue")
      = False from by simp, false_and, if_false]
  rw [hsv]
  rw [show env.importFn "_thread" (dictPop (dictPop r "threading") "_thread")
      = origTV env r from rfl]
  rw [show saverRestore (saverSave [] (dictPop r "threading") ["_thread"])
      (dictSet (dictPop (dictPop r "threading") "_thread") ("__original_module_" ++ "_thread")
        (origTV env r)) = origRT env r from rfl]
  rw [show env.importFn "threading" (dictSet (origRT env r) "_thread" (origTV env r))
      = origV env r from rfl]
  rw [show saverRestore (origSaved2 r)
      (dictSet (dictSet (origRT env r) "_thread" (origTV env r))
        ("__original_module_" ++ "threading") (origV env r)) = origRF env r from rfl]
  rw [hval]
  simp

theorem origSaved2_consistent (r : Registry) : SaverConsistent r (origSaved2 r) := by
  intro p hp
  simp only [origSaved2, List.mem_cons, List.mem_singleton] at hp
  rcases hp with h | h | h
  · rw [h]
  · rw [h]
    simp [sysGet, dictGet_dictPop]
  · simp at h

/-- C8: with no native resolutions cached, the first `original("threading")`
call resolves `"_thread"` natively first (the import log is
`["_thread", "threading"]` and the `threading` import runs on a registry
with the native `_thread` installed), caches both natives permanently,
restores the displaced `_thread` and `threading` bindings, and a second
call returns the identical object with no further import and no registry
change. -/
theorem original_threading_scenario (env : OrigEnv) (r : Registry)
    (h1 : dictGet r "__original_module_threading" = Option.none)
    (h2 : dictGet r "__original_module__thread" = Option.none)
    (h3 : dictGet r "_thread" ≠ Option.some Value.pyNone)
    (h4 : dictGet r "threading" ≠ Option.some Value.pyNone) :
    ∃ v tv rf,
      original env "threading" r = (v, rf, ["_thread", "threading"]) ∧
      dictGet rf "__original_module_threading" = Option.some v ∧
      dictGet rf "__original_module__thread" = Option.some tv ∧
      (∃ rmid, dictGet rmid "_thread" = Option.some tv ∧
        v = env.importFn "threading" rmid) ∧
      dictGet rf "_thread" = dictGet r "_thread" ∧
      dictGet rf "threading" = dictGet r "threading" ∧
      original env "threading" rf = (v, rf, []) := by
  have hlast : savedLast (origSaved2 r) ("__original_module_" ++ "threading")
      = Option.none := by
    simp [origSaved2, savedLast]
  have hval : dictGet (origRF env r) ("__original_module_" ++ "threading")
      = Option.some (origV env r) := by
    rw [origRF, saverRestore_get, hlast]
    simp
  refine ⟨origV env r, origTV env r, origRF env r,
    original_threading_eq env r h1 h2, hval, ?_, ?_, ?_, ?_, ?_⟩
  · rw [origRF, saverRestore_get]
    simp [show savedLast (origSaved2 r) "__original_module__thread" = Option.none from by
        simp [origSaved2, savedLast],
      origRT, saverRestore_get, saverSave, savedInsert, savedLast]
  · exact ⟨dictSet (origRT env r) "_thread" (origTV env r), by simp, rfl⟩
  · rw [origRF, restore_of_consistent r _ _ (origSaved2_consistent r) _ h3]
    rw [if_pos (by simp [origSaved2, savedLast])]
  · rw [origRF, restore_of_consistent r _ _ (origSaved2_consistent r) _ h4]
    rw [if_pos (by simp [origSaved2, savedLast])]
  · conv_lhs => rw [original]
    rw [hval]

/-- Witness for C8 at a concrete environment and empty registry. -/
theorem original_threading_scenario_witness :
    (dictGet [] "__original_module_threading" = Option.none) ∧
      (dictGet [] "__original_module__thread" = Option.none) ∧
      (dictGet [] "_thread" ≠ Option.some Value.pyNone) ∧
      (dictGet [] "threading" ≠ Option.some Value.pyNone) ∧
      ∃ v tv rf,
        original ⟨fun n _ => Value.atom n.length, fun _ => false, id⟩ "threading" []
          = (v, rf, ["_thread", "threading"]) ∧
        dictGet rf "__original_module_threading" = Option.some v ∧
        dictGet rf "__original_module__thread" = Option.some tv ∧
        (∃ rmid, dictGet rmid "_thread" = Option.some tv ∧
          v = (⟨fun n _ => Value.atom n.length, fun _ => false, id⟩ :
            OrigEnv).importFn "threading" rmid) ∧
        dictGet rf "_thread" = dictGet [] "_thread" ∧
        dictGet rf "threading" = dictGet [] "threading" ∧
        original ⟨fun n _ => Value.atom n.length, fun _ => false, id⟩ "threading" rf
          = (v, rf, []) :=
  ⟨by decide, by decide, by decide, by decide,
    original_threading_scenario ⟨fun n _ => Value.atom n.length, fun _ => false, id⟩ []
      (by decide) (by decide) (by decide) (by decide)⟩


/-! ### Model B: `monkey_patch` and `is_monkey_patched` -/

theorem selGet_append_single (l : List (String × Bool)) (k : String) (v : Bool)
    (m : String) :
    selGet (l ++ [(k, v)]) m =
      match selGet l m with
      | Option.some b => Option.some b
      | Option.none => if k = m then Option.some v else Option.none := by
  induction l with
  | nil => simp [selGet]
  | cons p t ih =>
    by_cases hp : p.1 = m
    · simp [selGet, hp]
    · simp [selGet, hp, ih]

theorem selGet_selSetDefault (l : List (String × Bool)) (k : String) (v : Bool)
    (m : String) :
    selGet (selSetDefault l k v) m =
      if m = k then Option.some ((selGet l k).getD v) else selGet l m := by
  rw [selSetDefault]
  cases hk : selGet l k with
  | some b =>
    simp only [hk, Option.isSome_some, if_pos]
    by_cases h : m = k
    · subst h
      simp [hk]
    · simp [h]
  | none =>
    simp only [hk, Option.isSome_none, Bool.false_eq_true, if_false]
    rw [selGet_append_single]
    by_cases h : m = k
    · subst h
      simp [hk]
    · have hk2 : ¬ k = m := fun hh => h hh.symm
      cases hg : selGet l m <;> simp [hg, hk2, h]

theorem selGet_resolveStep (default_on : Bool) (acc : List (String × Bool))
    (mname f : String) :
    selGet (resolveStep default_on acc mname) f =
      if f = mname then
        Option.some ((selGet acc f).getD
          (if mname = "MySQLdb" ∨ mname = "builtins" then false else default_on))
      else selGet acc f := by
  by_cases hm : mname = "MySQLdb" ∨ mname = "builtins" <;>
    by_cases h : f = mname <;>
      simp [resolveStep, selGet_selSetDefault, hm, h]

theorem selGet_resolveFold (default_on : Bool) (names : List String)
    (acc : List (String × Bool)) (f : String) :
    selGet (names.foldl (resolveStep default_on) acc) f =
      if f ∈ names then
        Option.some ((selGet acc f).getD
          (if f = "MySQLdb" ∨ f = "builtins" then false else default_on))
      else selGet acc f := by
  induction names generalizing acc with
  | nil => simp
  | cons n t ih =>
    rw [List.foldl_cons, ih]
    by_cases hf : f ∈ t
    · rw [if_pos hf, if_pos (List.mem_cons_of_mem n hf)]
      rw [selGet_resolveStep]
      by_cases h : f = n
      · subst h
        cases hg : selGet acc f <;> simp [hg]
      · simp [h]
    · by_cases h : f = n
      · subst h
        rw [if_neg hf, if_pos (List.mem_cons_self f t)]
        rw [selGet_resolveStep]
        simp
      · rw [if_neg hf, if_neg (by simp [h, hf]), selGet_resolveStep, if_neg h]

theorem selPop_of_absent (l : List (String × Bool)) (k : String)
    (h : selGet l k = Option.none) : selPop l k = l := by
  induction l with
  | nil => simp [selPop]
  | cons p t ih =>
    by_cases hp : p.1 = k
    · rw [selGet, if_pos hp] at h
      cases h
    · rw [selGet, if_neg hp] at h
      rw [selPop, if_neg hp, ih h]

theorem selectFold_noop (env : PatchEnv) (R : List (String × Bool))
    (names : List String) (acc : List (String × GreenMod) × (String → Bool))
    (h : ∀ f ∈ names, ((selGet R f).getD false && ! acc.2 f) = false) :
    names.foldl (selectStep env R) acc = acc := by
  induction names with
  | nil => rfl
  | cons n t ih =>
    rw [List.foldl_cons]
    rw [show selectStep env R acc n = acc from by
      rw [selectStep, h n (List.mem_cons_self n t)]
      simp]
    exact ih (fun f hf => h f (List.mem_cons_of_mem n hf))

theorem selectFold_ap_iff (env : PatchEnv) (R : List (String × Bool))
    (names : List String) (acc : List (String × GreenMod) × (String → Bool))
    (f : String) :
    ((names.foldl (selectStep env R) acc).2 f = true) ↔
      (acc.2 f = true ∨ (f ∈ names ∧ (selGet R f).getD false = true)) := by
  induction names generalizing acc with
  | nil => simp
  | cons n t ih =>
    rw [List.foldl_cons, ih]
    constructor
    · rintro (h | h)
      · rw [selectStep] at h
        by_cases hg : ((selGet R n).getD false && ! acc.2 n) = true
        · rw [if_pos hg] at h
          by_cases hf : f = n
          · subst hf
            exact Or.inr ⟨List.mem_cons_self f t, ((Bool.and_eq_true _ _).mp hg).1⟩
          · simp only [hf, if_false] at h
            exact Or.inl h
        · rw [if_neg hg] at h
          exact Or.inl h
      · exact Or.inr ⟨List.mem_cons_of_mem n h.1, h.2⟩
    · rintro (h | h)
      · left
        rw [selectStep]
        by_cases hg : ((selGet R n).getD false && ! acc.2 n) = true
        · rw [if_pos hg]
          by_cases hf : f = n <;> simp [hf, h]
        · rw [if_neg hg]
          exact h
      · rcases List.mem_cons.mp h.1 with hf | hf
        · subst hf
          left
          rw [selectStep]
          by_cases hg : ((selGet R f).getD false && ! acc.2 f) = true
          · rw [if_pos hg]
            simp
          · rw [if_neg hg]
            cases hacc : acc.2 f with
            | true => rfl
            | false =>
              exfalso
              apply hg
              rw [h.2, hacc]
              rfl
        · exact Or.inr ⟨hf, h.2⟩

/-- C4: the toggle-resolution policy.  For a selection with recognized
family names (and no `all`/`__builtin__` indirection): every family is
resolved to its explicit toggle if set, otherwise to `false` for the two
opt-in-only families `MySQLdb` and `builtins`, and otherwise to the
default, which is `true` exactly when no toggle is explicitly `true`.
Consequently an empty selection applies every family except the two
opt-in-only ones, and a selection with at least one explicit `true`
applies exactly the explicitly-true families: the family loop on a fresh
`already_patched` marks exactly the resolved-true families. -/
theorem resolveSelection_policy (env : PatchEnv) (sel : List (String × Bool))
    (hb : selGet sel "__builtin__" = Option.none)
    (hall : selGet sel "all" = Option.none)
    (hkeys : ∀ p ∈ sel, p.1 ∈ accepted_args) :
    ∃ R, resolveSelection sel = Except.ok R ∧
      (∀ f ∈ accepted_args, selGet R f =
        Option.some (match selGet sel f with
          | Option.some b => b
          | Option.none =>
            if f = "MySQLdb" ∨ f = "builtins" then false
            else ! sel.any (fun kv => kv.2))) ∧
      (∀ f, ((selectFamilies env R (fun _ => false)).2 f = true ↔
        (f ∈ familyOrder ∧ (selGet R f).getD false = true))) := by
  have hnoerr : sel.any (fun kv => ! accepted_args.contains kv.1) = false := by
    rw [List.any_eq_false]
    intro p hp
    have hm : accepted_args.contains p.1 = true := by
      rw [List.contains_eq_any_beq, List.any_eq_true]
      exact ⟨p.1, hkeys p hp, by simp⟩
    rw [hm]
    decide
  have hres : resolveSelection sel =
      Except.ok (accepted_args.foldl
        (resolveStep (! sel.any (fun kv => kv.2))) sel) := by
    rw [resolveSelection]
    rw [if_neg (by rw [hb]; simp)]
    simp only [hb]
    rw [selPop_of_absent sel "all" hall]
    rw [hall]
    rw [if_neg (by rw [hnoerr]; simp)]
    rfl
  refine ⟨_, hres, ?_, ?_⟩
  · intro f hf
    rw [selGet_resolveFold, if_pos hf]
    cases hg : selGet sel f <;> simp [hg]
  · intro f
    rw [selectFamilies, selectFold_ap_iff]
    simp

/-- Witness for C4 at the selection with only the thread family
explicitly on. -/
theorem resolveSelection_policy_witness :
    (selGet [("thread", true)] "__builtin__" = Option.none) ∧
      (selGet [("thread", true)] "all" = Option.none) ∧
      (∀ p ∈ [("thread", true)], p.1 ∈ accepted_args) ∧
      ∃ R, resolveSelection [("thread", true)] = Except.ok R ∧
        (∀ f ∈ accepted_args, selGet R f =
          Option.some (match selGet [("thread", true)] f with
            | Option.some b => b
            | Option.none =>
              if f = "MySQLdb" ∨ f = "builtins" then false
              else ! [("thread", true)].any (fun kv => kv.2))) ∧
        (∀ f, (((selectFamilies
            ⟨fun _ => [], false, false, fun _ => (fun _ => Option.none),
              fun _ => (fun _ => Option.none), Value.atom 0,
              (fun _ => Option.none), fun _ => false, id⟩ R
            (fun _ => false)).2 f = true) ↔
          (f ∈ familyOrder ∧ (selGet R f).getD false = true))) :=
  ⟨by decide, by decide, by decide,
    resolveSelection_policy _ [("thread", true)] (by decide) (by decide) (by decide)⟩

@[simp]
theorem setMod_self (m : Mods) (k : String) (o : ModObj) :
    setMod m k o k = Option.some o := by
  simp [setMod]

theorem setMod_ne (m : Mods) (k : String) (o : ModObj) (n : String) (h : n ≠ k) :
    setMod m k o n = m n := by
  simp [setMod, h]

@[simp]
theorem setAttr_self (o : ModObj) (a : String) (v : Value) :
    setAttr o a v a = Option.some v := by
  simp [setAttr]

theorem setAttr_ne (o : ModObj) (a : String) (v : Value) (x : String) (h : x ≠ a) :
    setAttr o a v x = o x := by
  simp [setAttr, h]

theorem setMod_id_of_eq (m : Mods) (k : String) (o : ModObj)
    (h : m k = Option.some o) : setMod m k o = m := by
  funext n
  by_cases hn : n = k
  · subst hn
    rw [setMod_self, h]
  · exact setMod_ne m k o n hn

theorem setAttr_id_of_eq (o : ModObj) (a : String) (v : Value)
    (h : o a = Option.some v) : setAttr o a v = o := by
  funext x
  by_cases hx : x = a
  · subst hx
    rw [setAttr_self, h]
  · exact setAttr_ne o a v x hx

theorem setMod_preservesSome (m : Mods) (k : String) (o : ModObj) (n : String)
    (h : (m n).isSome) : ((setMod m k o) n).isSome := by
  by_cases hn : n = k
  · subst hn
    simp
  · rw [setMod_ne m k o n hn]
    exact h

theorem afterForkStep_preservesSome (env : PatchEnv) (m : Mods) (n : String)
    (h : (m n).isSome) : ((afterForkStep env m) n).isSome := by
  rw [afterForkStep]
  by_cases hp : (m "__patched_module_threading").isSome
  · rw [if_pos hp]
    exact h
  · rw [if_neg hp]
    exact setMod_preservesSome m _ _ n h

theorem patchOne_preservesSome (env : PatchEnv) (acc : Mods × List Op)
    (e : String × GreenMod) (n : String) (h : (acc.1 n).isSome) :
    ((patchOne env acc e).1 n).isSome := by
  simp only [patchOne]
  by_cases hc : e.1 = "threading" ∧ env.registerAtFork
  · rw [if_pos hc]
    exact afterForkStep_preservesSome env _ n (setMod_preservesSome acc.1 _ _ n h)
  · rw [if_neg hc]
    exact setMod_preservesSome acc.1 _ _ n h

theorem patchFold_preservesSome (env : PatchEnv) (entries : List (String × GreenMod)) :
    ∀ (acc : Mods × List Op) (n : String), (acc.1 n).isSome →
      ((entries.foldl (patchOne env) acc).1 n).isSome := by
  induction entries with
  | nil => exact fun acc n h => h
  | cons e t ih =>
    intro acc n h
    rw [List.foldl_cons]
    exact ih _ n (patchOne_preservesSome env acc e n h)

theorem depRank_get_lt (modname : String) (hdep : (depOf modname).isSome) :
    depRank ((depOf modname).get hdep) < depRank modname := by
  by_cases h1 : modname = "threading"
  · subst h1
    simp [depOf, depRank]
  · by_cases h2 : modname = "queue"
    · subst h2
      simp [depOf, depRank, h1]
    · exfalso
      simp [depOf, h1, h2] at hdep

theorem ensure_id_of_isSome (env : PatchEnv) (m : Mods) (modname : String)
    (h : (m ("__original_module_" ++ modname)).isSome) :
    ensureOriginalCached env m modname = m := by
  rw [ensureOriginalCached]
  rw [if_pos h]

theorem ensure_sets_key (env : PatchEnv) (m : Mods) (modname : String) :
    ((ensureOriginalCached env m modname) ("__original_module_" ++ modname)).isSome := by
  rw [ensureOriginalCached]
  by_cases h : (m ("__original_module_" ++ modname)).isSome
  · rw [if_pos h]
    exact h
  · rw [if_neg h]
    simp

theorem ensure_preservesSome (b : Nat) (env : PatchEnv) (modname : String)
    (m : Mods) (n : String) (hb : depRank modname ≤ b) (h : (m n).isSome) :
    ((ensureOriginalCached env m modname) n).isSome := by
  induction b generalizing modname m with
  | zero =>
    rw [ensureOriginalCached]
    by_cases hk : (m ("__original_module_" ++ modname)).isSome
    · rw [if_pos hk]
      exact h
    · rw [if_neg hk]
      have hdep : ¬ (depOf modname).isSome := by
        intro hd
        have := depRank_get_lt modname hd
        omega
      rw [dif_neg hdep]
      exact setMod_preservesSome m _ _ n h
  | succ k ih =>
    rw [ensureOriginalCached]
    by_cases hk : (m ("__original_module_" ++ modname)).isSome
    · rw [if_pos hk]
      exact h
    · rw [if_neg hk]
      by_cases hdep : (depOf modname).isSome
      · rw [dif_pos hdep]
        apply setMod_preservesSome
        apply ih
        · have := depRank_get_lt modname hdep
          omega
        · exact h
      · rw [dif_neg hdep]
        exact setMod_preservesSome m _ _ n h

theorem fixupImportlib_preservesSome (env : PatchEnv) (m : Mods) (n : String)
    (h : (m n).isSome) : ((fixupImportlib env m) n).isSome := by
  rw [fixupImportlib]
  exact setMod_preservesSome m _ _ n h

theorem fixupSelfAttr_preservesSome (env : PatchEnv) (m : Mods)
    (modn src dst n : String) (h : (m n).isSome) :
    ((fixupSelfAttr env m modn src dst) n).isSome := by
  simp only [fixupSelfAttr]
  cases hx : (getOrImportObj env m modn) src
  · exact setMod_preservesSome m _ _ n h
  · exact setMod_preservesSome m _ _ n h

theorem applyFixups_preservesSome (env : PatchEnv) (m : Mods) (n : String)
    (h : (m n).isSome) : ((applyFixups env m) n).isSome := by
  rw [applyFixups]
  exact fixupSelfAttr_preservesSome env _ _ _ _ n
    (fixupSelfAttr_preservesSome env _ _ _ _ n
      (fixupImportlib_preservesSome env m n h))

theorem greenLocksPass_preservesSome (env : PatchEnv) (m : Mods) (n : String)
    (h : (m n).isSome) : ((greenLocksPass env m) n).isSome := by
  rw [greenLocksPass]
  cases hm : m n
  · rw [hm] at h
    cases h
  · simp [hm]

theorem greenLocksFold_preservesSome (env : PatchEnv)
    (entries : List (String × GreenMod)) :
    ∀ (m : Mods) (n : String), (m n).isSome →
      ((greenLocksFold env entries m) n).isSome := by
  induction entries with
  | nil => exact fun m n h => h
  | cons e t ih =>
    intro m n h
    rw [greenLocksFold, List.foldl_cons]
    rw [show List.foldl _ _ t = greenLocksFold env t
        (if e.1 = "threading" then greenLocksPass env m else m) from rfl]
    apply ih
    by_cases hc : e.1 = "threading"
    · rw [if_pos hc]
      exact greenLocksPass_preservesSome env m n h
    · rw [if_neg hc]
      exact h

theorem fixupSelfAttr_other (env : PatchEnv) (m : Mods) (modn src dst n : String)
    (h : n ≠ modn) : (fixupSelfAttr env m modn src dst) n = m n := by
  simp only [fixupSelfAttr]
  cases hx : (getOrImportObj env m modn) src
  · exact setMod_ne m modn _ n h
  · exact setMod_ne m modn _ n h

theorem fixupSelfAttr_state (env : PatchEnv) (m : Mods) (modn src dst : String)
    (hsd : src ≠ dst) :
    ∃ t, (fixupSelfAttr env m modn src dst) modn = Option.some t ∧
      (t dst = t src ∨ t src = Option.none) := by
  simp only [fixupSelfAttr]
  cases hx : (getOrImportObj env m modn) src with
  | none =>
    refine ⟨getOrImportObj env m modn, ?_, Or.inr hx⟩
    show setMod m modn (getOrImportObj env m modn) modn = _
    rw [setMod_self]
  | some v =>
    refine ⟨setAttr (getOrImportObj env m modn) dst v, ?_, Or.inl ?_⟩
    · show setMod m modn (setAttr (getOrImportObj env m modn) dst v) modn = _
      rw [setMod_self]
    · rw [setAttr_self, setAttr_ne _ _ _ _ hsd, hx]

theorem fixups_establish (env : PatchEnv) (m : Mods) :
    FixupsInv env (applyFixups env m) := by
  rw [applyFixups]
  have hb1 : (fixupImportlib env m) "importlib._bootstrap" =
      Option.some (setAttr (getOrImportObj env m "importlib._bootstrap") "_thread"
        env.nativeThreadVal) := by
    rw [fixupImportlib, setMod_self]
  refine ⟨⟨setAttr (getOrImportObj env m "importlib._bootstrap") "_thread"
      env.nativeThreadVal, ?_, by rw [setAttr_self]⟩, ?_, ?_⟩
  · rw [fixupSelfAttr_other env _ _ _ _ _ (by decide),
      fixupSelfAttr_other env _ _ _ _ _ (by decide), hb1]
  · obtain ⟨t, ht, htd⟩ := fixupSelfAttr_state env (fixupImportlib env m)
      "threading" "_PyRLock" "RLock" (by decide)
    refine ⟨t, ?_, ?_⟩
    · rw [fixupSelfAttr_other env _ _ _ _ _ (by decide), ht]
    · rcases htd with h | h
      · exact Or.inl h
      · exact Or.inr h
  · exact fixupSelfAttr_state env _ "queue" "_PySimpleQueue" "SimpleQueue" (by decide)

theorem fixupImportlib_id_of_inv (env : PatchEnv) (m : Mods)
    (h : ∃ o, m "importlib._bootstrap" = Option.some o ∧
      o "_thread" = Option.some env.nativeThreadVal) :
    fixupImportlib env m = m := by
  obtain ⟨o, ho, hot⟩ := h
  rw [fixupImportlib]
  rw [show getOrImportObj env m "importlib._bootstrap" = o from by
    rw [getOrImportObj, ho]; rfl]
  rw [setAttr_id_of_eq o "_thread" _ hot]
  exact setMod_id_of_eq m _ o ho

theorem fixupSelfAttr_id_of_inv (env : PatchEnv) (m : Mods) (modn src dst : String)
    (h : ∃ t, m modn = Option.some t ∧ (t dst = t src ∨ t src = Option.none)) :
    fixupSelfAttr env m modn src dst = m := by
  obtain ⟨t, ht, htd⟩ := h
  simp only [fixupSelfAttr]
  rw [show getOrImportObj env m modn = t from by rw [getOrImportObj, ht]; rfl]
  rcases htd with hd | hd
  · cases hx : t src with
    | none =>
      show setMod m modn t = m
      exact setMod_id_of_eq m modn t ht
    | some v =>
      show setMod m modn (setAttr t dst v) = m
      rw [show setAttr t dst v = t from setAttr_id_of_eq t dst v (by rw [hd, hx])]
      exact setMod_id_of_eq m modn t ht
  · rw [hd]
    show setMod m modn t = m
    exact setMod_id_of_eq m modn t ht

theorem fixups_id_of_inv (env : PatchEnv) (m : Mods) (hinv : FixupsInv env m) :
    applyFixups env m = m := by
  obtain ⟨hb, ht, hq⟩ := hinv
  rw [applyFixups, fixupImportlib_id_of_inv env m hb,
    fixupSelfAttr_id_of_inv env m _ _ _ ht, fixupSelfAttr_id_of_inv env m _ _ _ hq]

theorem greenLocksPass_inv (env : PatchEnv) (m : Mods)
    (hrl : env.isRLock env.nativeThreadVal = false) (h : FixupsInv env m) :
    FixupsInv env (greenLocksPass env m) := by
  obtain ⟨⟨o, hbo, hbt⟩, ⟨t, hto, htr⟩, ⟨q, hqo, hqs⟩⟩ := h
  refine ⟨⟨_, by rw [greenLocksPass, hbo]; rfl, ?_⟩,
    ⟨_, by rw [greenLocksPass, hto]; rfl, ?_⟩,
    ⟨_, by rw [greenLocksPass, hqo]; rfl, ?_⟩⟩
  · show (o "_thread").map (upgradeSlot env) = Option.some env.nativeThreadVal
    rw [hbt]
    simp [upgradeSlot, hrl]
  · rcases htr with htr | htr
    · left
      show (t "RLock").map (upgradeSlot env) = (t "_PyRLock").map (upgradeSlot env)
      rw [htr]
    · right
      show (t "_PyRLock").map (upgradeSlot env) = Option.none
      rw [htr]
      rfl
  · rcases hqs with hqs | hqs
    · left
      show (q "SimpleQueue").map (upgradeSlot env) = (q "_PySimpleQueue").map (upgradeSlot env)
      rw [hqs]
    · right
      show (q "_PySimpleQueue").map (upgradeSlot env) = Option.none
      rw [hqs]
      rfl

theorem greenLocksFold_inv (env : PatchEnv) (entries : List (String × GreenMod))
    (hrl : env.isRLock env.nativeThreadVal = false) :
    ∀ (m : Mods), FixupsInv env m → FixupsInv env (greenLocksFold env entries m) := by
  induction entries with
  | nil => exact fun m h => h
  | cons e t ih =>
    intro m h
    rw [greenLocksFold, List.foldl_cons]
    rw [show List.foldl _ _ t = greenLocksFold env t
        (if e.1 = "threading" then greenLocksPass env m else m) from rfl]
    apply ih
    by_cases hc : e.1 = "threading"
    · rw [if_pos hc]
      exact greenLocksPass_inv env m hrl h
    · rw [if_neg hc]
      exact h

theorem psycopgStep_mono (env : PatchEnv) (R : List (String × Bool))
    (ap : String → Bool) (f : String) (h : ap f = true) :
    psycopgStep env R ap f = true := by
  rw [psycopgStep]
  by_cases hg : ((selGet R "psycopg").getD false && ! ap "psycopg"
      && env.psycopgAvailable) = true
  · rw [if_pos hg]
    by_cases hf : f = "psycopg" <;> simp [hf, h]
  · rw [if_neg hg]
    exact h

theorem psycopgStep_idem (env : PatchEnv) (R : List (String × Bool))
    (ap : String → Bool) :
    psycopgStep env R (psycopgStep env R ap) = psycopgStep env R ap := by
  by_cases hg : ((selGet R "psycopg").getD false && ! ap "psycopg"
      && env.psycopgAvailable) = true
  · have hx : psycopgStep env R ap =
        fun y => if y = "psycopg" then true else ap y := by
      rw [psycopgStep, if_pos hg]
    rw [hx]
    rw [psycopgStep, if_neg (by simp)]
  · have hx : psycopgStep env R ap = ap := by
      rw [psycopgStep, if_neg hg]
    rw [hx, hx]

/-- C1: `monkey_patch` is idempotent and `already_patched` is monotone.
For any selection that resolves, the first call yields a state `s1`;
re-invoking with the same selection performs no attribute installation
or deletion at all (the operation log of the second call is empty, so in
particular no attribute is installed twice and nothing is
double-deleted) and returns a state identical to `s1`; and every family
recorded as applied before a call is still recorded afterwards.  The
hypothesis on `isRLock` states that the native `_thread` module is not
itself an RLock instance (true in CPython), which the lock-upgrade pass
would otherwise rewrite. -/
theorem monkey_patch_idempotent (env : PatchEnv) (sel : List (String × Bool))
    (s : PatchState) (R : List (String × Bool))
    (hres : resolveSelection sel = Except.ok R)
    (hrl : env.isRLock env.nativeThreadVal = false) :
    ∃ s1 tr1, monkey_patch env sel s = Except.ok (s1, tr1) ∧
      monkey_patch env sel s1 = Except.ok (s1, []) ∧
      (∀ f, s.ap f = true → s1.ap f = true) := by
  set fam := selectFamilies env R s.ap with hfam
  set ap2 := psycopgStep env R fam.2 with hap2
  set m1 := ensureOriginalCached env s.mods "threading" with hm1
  set pl := fam.1.foldl (patchOne env) (m1, []) with hpl
  set m3 := ensureOriginalCached env pl.1 "_thread" with hm3
  set m4 := applyFixups env m3 with hm4
  set m5 := greenLocksFold env fam.1 m4 with hm5
  have hc1 : monkey_patch env sel s = Except.ok (⟨ap2, m5⟩, pl.2) := by
    rw [monkey_patch, hres]
  have hfam2true : ∀ f ∈ familyOrder, (selGet R f).getD false = true → fam.2 f = true := by
    intro f hf hR
    rw [hfam, selectFamilies]
    exact (selectFold_ap_iff env R familyOrder ([], s.ap) f).mpr (Or.inr ⟨hf, hR⟩)
  have hselA : selectFamilies env R ap2 = ([], ap2) := by
    rw [selectFamilies]
    apply selectFold_noop
    intro f hf
    cases hRf : (selGet R f).getD false with
    | false => rfl
    | true =>
      have h2 : ap2 f = true :=
        psycopgStep_mono env R fam.2 f (hfam2true f hf hRf)
      show (true && ! ap2 f) = false
      rw [h2]
      rfl
  have hpsy2 : psycopgStep env R ap2 = ap2 := by
    rw [hap2]
    exact psycopgStep_idem env R fam.2
  have hk1 : (m5 ("__original_module_" ++ "threading")).isSome := by
    apply greenLocksFold_preservesSome
    apply applyFixups_preservesSome
    apply ensure_preservesSome (depRank "_thread") env "_thread" pl.1 _ (Nat.le_refl _)
    apply patchFold_preservesSome
    exact ensure_sets_key env s.mods "threading"
  have hk2 : (m5 ("__original_module_" ++ "_thread")).isSome := by
    apply greenLocksFold_preservesSome
    apply applyFixups_preservesSome
    exact ensure_sets_key env pl.1 "_thread"
  have hens1 : ensureOriginalCached env m5 "threading" = m5 :=
    ensure_id_of_isSome env m5 "threading" hk1
  have hens2 : ensureOriginalCached env m5 "_thread" = m5 :=
    ensure_id_of_isSome env m5 "_thread" hk2
  have hinv : FixupsInv env m5 := by
    rw [hm5, hm4]
    exact greenLocksFold_inv env fam.1 hrl _ (fixups_establish env m3)
  have hfx : applyFixups env m5 = m5 := fixups_id_of_inv env m5 hinv
  refine ⟨⟨ap2, m5⟩, pl.2, hc1, ?_, ?_⟩
  · rw [monkey_patch, hres]
    simp only [hselA, hpsy2, hens1, hens2, List.foldl_nil, hfx, greenLocksFold]
  · intro f hf
    show ap2 f = true
    apply psycopgStep_mono
    rw [hfam, selectFamilies]
    exact (selectFold_ap_iff env R familyOrder ([], s.ap) f).mpr (Or.inl hf)

/-- Witness for C1: a concrete environment with one green module in the
thread family, starting from a fresh state. -/
theorem monkey_patch_idempotent_witness :
    (resolveSelection [("thread", true)] =
      Except.ok (resolveStep false (resolveStep false (resolveStep false
        (resolveStep false (resolveStep false (resolveStep false (resolveStep false
        (resolveStep false (resolveStep false [("thread", true)] "os") "select")
        "socket") "thread") "time") "psycopg") "MySQLdb") "builtins") "subprocess")) ∧
    ∃ s1 tr1,
      monkey_patch
        ⟨fun f => if f = "thread" then
            [("threading", ⟨fun a => if a = "Lock" then Option.some (Value.atom 7)
              else Option.none, ["Lock"], []⟩)] else [],
          true, true, fun _ => (fun _ => Option.none),
          fun _ => (fun _ => Option.none), Value.atom 0,
          (fun _ => Option.none), fun _ => false, id⟩
        [("thread", true)] ⟨fun _ => false, fun _ => Option.none⟩
        = Except.ok (s1, tr1) ∧
      monkey_patch
        ⟨fun f => if f = "thread" then
            [("threading", ⟨fun a => if a = "Lock" then Option.some (Value.atom 7)
              else Option.none, ["Lock"], []⟩)] else [],
          true, true, fun _ => (fun _ => Option.none),
          fun _ => (fun _ => Option.none), Value.atom 0,
          (fun _ => Option.none), fun _ => false, id⟩
        [("thread", true)] s1 = Except.ok (s1, []) ∧
      (∀ f, (fun _ => false) f = true → s1.ap f = true) :=
  ⟨rfl,
    monkey_patch_idempotent _ [("thread", true)] ⟨fun _ => false, fun _ => Option.none⟩
      _ rfl rfl⟩

/-- `is_monkey_patched` on a string argument is exactly the
`already_patched` key lookup. -/
theorem is_monkey_patched_str (ap : String → Bool) (n : String) :
    is_monkey_patched ap (PyRef.str n) = ap n := by
  rw [is_monkey_patched]
  show (ap n || false) = ap n
  exact Bool.or_false (ap n)

theorem psycopgStep_other (env : PatchEnv) (R : List (String × Bool))
    (ap : String → Bool) (f : String) (h : f ≠ "psycopg") :
    psycopgStep env R ap f = ap f := by
  rw [psycopgStep]
  by_cases hg : ((selGet R "psycopg").getD false && ! ap "psycopg"
      && env.psycopgAvailable) = true
  · rw [if_pos hg]
    simp [h]
  · rw [if_neg hg]

/-- Counterexample to C10 as stated: after applying the thread family
(which installs the `threading` component — witnessed by the recorded
installation on module `threading`), `is_monkey_patched` returns `true`
for the family name `"thread"` but `false` for the installed component
name `"threading"`, because `already_patched` is keyed by family names
only. -/
theorem is_monkey_patched_component_counterexample :
    c10state.ap "thread" = true ∧
      (Op.install "threading" "Lock" (Value.atom 7)) ∈ c10ops ∧
      is_monkey_patched c10state.ap (PyRef.str "thread") = true ∧
      is_monkey_patched c10state.ap (PyRef.str "threading") = false := by
  refine ⟨rfl, ?_, rfl, rfl⟩
  show (Op.install "threading" "Lock" (Value.atom 7)) ∈ c10ops
  have : c10ops = [Op.install "threading" "Lock" (Value.atom 7)] := rfl
  rw [this]
  exact List.mem_singleton.mpr rfl

/-- C10 amended: `is_monkey_patched` answers membership of the
`already_patched` record, and `monkey_patch` records only family names
(the eight looped families and `psycopg`) beyond what was already
recorded.  Hence a query on a recorded family name returns `true`, and a
query on any other name — in particular on a component module name such
as `"threading"` that differs from its family name `"thread"` — returns
`false` even when the family that installs it has been applied. -/
theorem is_monkey_patched_family_names (env : PatchEnv) (sel : List (String × Bool))
    (s s1 : PatchState) (tr : List Op)
    (h : monkey_patch env sel s = Except.ok (s1, tr)) :
    (∀ f, s1.ap f = true → (f ∈ familyOrder ∨ f = "psycopg" ∨ s.ap f = true)) ∧
      (∀ f, is_monkey_patched s1.ap (PyRef.str f) = s1.ap f) := by
  cases hres : resolveSelection sel with
  | error e =>
    rw [monkey_patch, hres] at h
    cases h
  | ok R =>
    rw [monkey_patch, hres] at h
    injection h with h1
    injection h1 with hA hB
    constructor
    · intro f hf
      rw [← hA] at hf
      have hf2 : psycopgStep env R (selectFamilies env R s.ap).2 f = true := hf
      by_cases hp : f = "psycopg"
      · exact Or.inr (Or.inl hp)
      · rw [psycopgStep_other env R _ f hp] at hf2
        rw [selectFamilies] at hf2
        rcases (selectFold_ap_iff env R familyOrder ([], s.ap) f).mp hf2 with h3 | h3
        · exact Or.inr (Or.inr h3)
        · exact Or.inl h3.1
    · intro f
      exact is_monkey_patched_str s1.ap f

/-- Witness for the amended C10 theorem at the concrete C10 run. -/
theorem is_monkey_patched_family_names_witness :
    (monkey_patch c10env [("thread", true)] ⟨fun _ => false, fun _ => Option.none⟩
      = Except.ok (c10state, c10ops)) ∧
      ((∀ f, c10state.ap f = true →
          (f ∈ familyOrder ∨ f = "psycopg" ∨ (fun _ => false) f = true)) ∧
        (∀ f, is_monkey_patched c10state.ap (PyRef.str f) = c10state.ap f)) :=
  ⟨rfl, is_monkey_patched_family_names c10env [("thread", true)]
    ⟨fun _ => false, fun _ => Option.none⟩ c10state c10ops rfl⟩


/-! ### Model C: `_upgrade_instances` -/

theorem refUniverse_of_heapGet (h : Heap) (r : Ref) (d : ObjData)
    (hget : heapGet h r = Option.some d) :
    r ∈ refUniverse h ∧ ∀ x ∈ slotRefs d, x ∈ refUniverse h := by
  induction h with
  | nil => cases hget
  | cons p t ih =>
    rw [heapGet] at hget
    show r ∈ insert p.1 (refUniverse t ∪ (slotRefs p.2).toFinset) ∧
      ∀ x ∈ slotRefs d, x ∈ insert p.1 (refUniverse t ∪ (slotRefs p.2).toFinset)
    by_cases hp : p.1 = r
    · rw [if_pos hp] at hget
      injection hget with hd
      constructor
      · rw [← hp]
        exact Finset.mem_insert_self p.1 _
      · intro x hx
        apply Finset.mem_insert_of_mem
        apply Finset.mem_union_right
        rw [List.mem_toFinset, hd]
        exact hx
    · rw [if_neg hp] at hget
      obtain ⟨h1, h2⟩ := ih hget
      constructor
      · exact Finset.mem_insert_of_mem (Finset.mem_union_left _ h1)
      · intro x hx
        exact Finset.mem_insert_of_mem (Finset.mem_union_left _ (h2 x hx))

/-- Rewriting a slot of one container changes no other container. -/
theorem heapGet_map_ne (h : Heap) (c : Ref) (f : ObjData → ObjData) (r : Ref)
    (hr : r ≠ c) :
    heapGet (h.map (fun p => if p.1 = c then (p.1, f p.2) else p)) r = heapGet h r := by
  induction h with
  | nil => rfl
  | cons p t ih =>
    rw [List.map_cons]
    by_cases hp : p.1 = c
    · rw [if_pos hp]
      rw [heapGet, heapGet]
      have hpr : ¬ p.1 = r := by
        rw [hp]
        exact fun hh => hr hh.symm
      rw [if_neg hpr, if_neg hpr]
      exact ih
    · rw [if_neg hp]
      rw [heapGet, heapGet]
      by_cases hpr : p.1 = r
      · rw [if_pos hpr, if_pos hpr]
      · rw [if_neg hpr, if_neg hpr]
        exact ih

theorem o2nGet_mem (l : List (Ref × Ref)) (r n : Ref)
    (h : o2nGet l r = Option.some n) : (r, n) ∈ l := by
  induction l with
  | nil => cases h
  | cons p t ih =>
    rw [o2nGet] at h
    by_cases hp : p.1 = r
    · rw [if_pos hp] at h
      injection h with hn
      have hpv : p = (r, n) := by
        cases p with
        | mk a b =>
          simp only [Prod.mk.injEq]
          exact ⟨hp, hn⟩
      rw [show ((r, n) : Ref × Ref) = p from hpv.symm]
      exact List.mem_cons_self p t
    · rw [if_neg hp] at h
      exact List.mem_cons_of_mem _ (ih h)

theorem o2nGet_none_not_key (l : List (Ref × Ref)) (r : Ref)
    (h : o2nGet l r = Option.none) : r ∉ l.map Prod.fst := by
  induction l with
  | nil => simp
  | cons p t ih =>
    rw [o2nGet] at h
    by_cases hp : p.1 = r
    · rw [if_pos hp] at h
      cases h
    · rw [if_neg hp] at h
      rw [List.map_cons, List.mem_cons]
      rintro (hr | hr)
      · exact hp hr.symm
      · exact ih h hr

theorem StepOk.rfl (st : UpState) : StepOk st st :=
  ⟨⟨[], by simp, List.nodup_nil, by simp⟩, ⟨[], by simp⟩, id, fun _ h => h⟩

theorem StepOk.trans {a b c : UpState} (h1 : StepOk a b) (h2 : StepOk b c) :
    StepOk a c := by
  obtain ⟨⟨d1, hv1, hn1, hd1⟩, ⟨n1, ho1⟩, hw1, hi1⟩ := h1
  obtain ⟨⟨d2, hv2, hn2, hd2⟩, ⟨n2, ho2⟩, hw2, hi2⟩ := h2
  refine ⟨⟨d1 ++ d2, ?_, ?_, ?_⟩, ⟨n1 ++ n2, by rw [ho2, ho1, List.append_assoc]⟩,
    fun h => hw2 (hw1 h), fun U h => hi2 U (hi1 U h)⟩
  · rw [hv2, hv1, List.append_assoc]
  · rw [List.nodup_append]
    refine ⟨hn1, hn2, ?_⟩
    intro x hx1 hx2
    exact hd2 x hx2 (by rw [hv1]; exact List.mem_append_right _ hx1)
  · intro x hx
    rcases List.mem_append.mp hx with hx | hx
    · exact hd1 x hx
    · intro hmem
      exact hd2 x hx (by rw [hv1]; exact List.mem_append_left _ hmem)

theorem StepOk.mark (st : UpState) (c : Ref) (hc : c ∉ st.visited) :
    StepOk st { st with visited := st.visited ++ [c] } := by
  refine ⟨⟨[c], Eq.refl _, List.nodup_singleton c, ?_⟩, ⟨[], by simp⟩, id, ?_⟩
  · intro x hx
    rw [List.mem_singleton] at hx
    subst hx
    exact hc
  · intro U h r d hget hrv
    exact h r d hget (fun hm => hrv (List.mem_append_left _ hm))

theorem StepOk.o2nPush (st : UpState) (obj n : Ref)
    (hobj : o2nGet st.o2n obj = Option.none) :
    StepOk st { st with o2n := st.o2n ++ [(obj, n)] } := by
  refine ⟨⟨[], by simp, List.nodup_nil, by simp⟩, ⟨[(obj, n)], Eq.refl _⟩, ?_,
    fun U h => h⟩
  intro ⟨hk, hw⟩
  constructor
  · show ((st.o2n ++ [(obj, n)]).map Prod.fst).Nodup
    rw [List.map_append]
    rw [List.nodup_append]
    refine ⟨hk, List.nodup_singleton obj, ?_⟩
    intro x hx1 hx2
    rw [List.map_singleton, List.mem_singleton] at hx2
    subst hx2
    exact o2nGet_none_not_key st.o2n x hobj hx1
  · intro p hp
    exact List.mem_append_left _ (hw p hp)

theorem heapGet_heapSetDict_ne (h : Heap) (c : Ref) (k : String) (new r : Ref)
    (hr : r ≠ c) : heapGet (heapSetDict h c k new) r = heapGet h r := by
  rw [heapSetDict]
  exact heapGet_map_ne h c (dictSlotUpdate k new) r hr

theorem heapGet_heapSetList_ne (h : Heap) (c : Ref) (i : Nat) (new : Ref) (r : Ref)
    (hr : r ≠ c) : heapGet (heapSetList h c i new) r = heapGet h r := by
  rw [heapSetList]
  exact heapGet_map_ne h c (listSlotUpdate i new) r hr

theorem heapGet_heapSetPlain_ne (h : Heap) (c : Ref) (k : String) (new r : Ref)
    (hr : r ≠ c) : heapGet (heapSetPlain h c k new) r = heapGet h r := by
  rw [heapSetPlain]
  exact heapGet_map_ne h c (plainSlotUpdate k new) r hr

theorem StepOk.writeHeap (st : UpState) (c : Ref) (h2 : Heap) (v new : Ref)
    (hc : c ∈ st.visited) (hmem : (v, new) ∈ st.o2n)
    (hh : ∀ r, r ≠ c → heapGet h2 r = heapGet st.heap r) :
    StepOk st { st with heap := h2, writes := st.writes ++ [(v, new)] } := by
  refine ⟨⟨[], by simp, List.nodup_nil, by simp⟩, ⟨[], by simp⟩, ?_, ?_⟩
  · intro ⟨hk, hw⟩
    refine ⟨hk, ?_⟩
    intro p hp
    rcases List.mem_append.mp hp with hp | hp
    · exact hw p hp
    · rw [List.mem_singleton] at hp
      subst hp
      exact hmem
  · intro U h r d hget hrv
    have hr : r ≠ c := fun hrc => hrv (by rw [hrc]; exact hc)
    rw [show ({ st with heap := h2, writes := st.writes ++ [(v, new)] } :
      UpState).heap = h2 from Eq.refl _] at hget
    rw [hh r hr] at hget
    exact h r d hget hrv

theorem StepOk.warnBump (st : UpState) :
    StepOk st { st with warns := st.warns + 1 } :=
  ⟨⟨[], by simp, List.nodup_nil, by simp⟩, ⟨[], by simp⟩, fun h => h, fun _ h => h⟩

theorem uot_step (env : UpEnv) (f : Nat)
    (IH : ∀ st c, c ∉ st.visited → StepOk st (resState (visitC env f st c))) :
    ∀ st obj, StepOk st (resStateU (uot env f st obj)) ∧
      (∀ n st2, uot env f st obj = UotRes.val (Option.some n) st2 →
        (obj, n) ∈ st2.o2n) := by
  intro st obj
  rw [uot]
  by_cases hv : obj ∈ st.visited
  · rw [if_pos hv]
    refine ⟨StepOk.rfl st, ?_⟩
    intro n st2 h
    injection h with h1 h2
    cases h1
  · rw [if_neg hv]
    cases hg : heapGet st.heap obj with
    | none =>
      simp only
      cases hc : visitC env f st obj with
      | ok st2 =>
        have := IH st obj hv
        rw [hc] at this
        exact ⟨this, by intro n st2 h; injection h with h1 h2; cases h1⟩
      | err st2 =>
        have := IH st obj hv
        rw [hc] at this
        exact ⟨this, by intro n st2 h; cases h⟩
      | fuelOut st2 =>
        have := IH st obj hv
        rw [hc] at this
        exact ⟨this, by intro n st2 h; cases h⟩
    | some d =>
      cases d with
      | badObj =>
        exact ⟨StepOk.rfl st, by intro n st2 h; cases h⟩
      | lockObj =>
        cases ho : o2nGet st.o2n obj with
        | some n0 =>
          simp only
          refine ⟨StepOk.rfl st, ?_⟩
          intro n st2 h
          injection h with h1 h2
          injection h1 with h1
          subst h1
          subst h2
          exact o2nGet_mem st.o2n obj _ ho
        | none =>
          simp only
          refine ⟨StepOk.o2nPush st obj _ ho, ?_⟩
          intro n st2 h
          injection h with h1 h2
          injection h1 with h1
          subst h1
          rw [← h2]
          exact List.mem_append_right _ (List.mem_singleton.mpr (Eq.refl _))
      | dictObj slots =>
        simp only
        cases hc : visitC env f st obj with
        | ok st2 =>
          have := IH st obj hv
          rw [hc] at this
          exact ⟨this, by intro n st2 h; injection h with h1 h2; cases h1⟩
        | err st2 =>
          have := IH st obj hv
          rw [hc] at this
          exact ⟨this, by intro n st2 h; cases h⟩
        | fuelOut st2 =>
          have := IH st obj hv
          rw [hc] at this
          exact ⟨this, by intro n st2 h; cases h⟩
      | listObj slots =>
        simp only
        cases hc : visitC env f st obj with
        | ok st2 =>
          have := IH st obj hv
          rw [hc] at this
          exact ⟨this, by intro n st2 h; injection h with h1 h2; cases h1⟩
        | err st2 =>
          have := IH st obj hv
          rw [hc] at this
          exact ⟨this, by intro n st2 h; cases h⟩
        | fuelOut st2 =>
          have := IH st obj hv
          rw [hc] at this
          exact ⟨this, by intro n st2 h; cases h⟩
      | plainObj slots =>
        simp only
        cases hc : visitC env f st obj with
        | ok st2 =>
          have := IH st obj hv
          rw [hc] at this
          exact ⟨this, by intro n st2 h; injection h with h1 h2; cases h1⟩
        | err st2 =>
          have := IH st obj hv
          rw [hc] at this
          exact ⟨this, by intro n st2 h; cases h⟩
        | fuelOut st2 =>
          have := IH st obj hv
          rw [hc] at this
          exact ⟨this, by intro n st2 h; cases h⟩
      | atomObj =>
        simp only
        cases hc : visitC env f st obj with
        | ok st2 =>
          have := IH st obj hv
          rw [hc] at this
          exact ⟨this, by intro n st2 h; injection h with h1 h2; cases h1⟩
        | err st2 =>
          have := IH st obj hv
          rw [hc] at this
          exact ⟨this, by intro n st2 h; cases h⟩
        | fuelOut st2 =>
          have := IH st obj hv
          rw [hc] at this
          exact ⟨this, by intro n st2 h; cases h⟩

theorem dictLoop_step (env : UpEnv) (f : Nat)
    (HU : ∀ st obj, StepOk st (resStateU (uot env f st obj)) ∧
      (∀ n st2, uot env f st obj = UotRes.val (Option.some n) st2 →
        (obj, n) ∈ st2.o2n)) :
    ∀ (slots : List (String × Ref)) (st : UpState) (c : Ref), c ∈ st.visited →
      StepOk st (resState (dictLoop env f st c slots)) := by
  intro slots
  induction slots with
  | nil =>
    intro st c hc
    rw [dictLoop]
    exact StepOk.rfl st
  | cons p rest ih =>
    intro st c hc
    rw [dictLoop]
    obtain ⟨h1, h2⟩ := HU st p.2
    cases hu : uot env f st p.2 with
    | val rep st2 =>
      rw [hu] at h1
      have hc2 : c ∈ st2.visited := by
        obtain ⟨⟨dv, hv, _, _⟩, _, _, _⟩ := h1
        rw [show st2.visited = st.visited ++ dv from hv]
        exact List.mem_append_left _ hc
      cases rep with
      | none => exact StepOk.trans h1 (ih st2 c hc2)
      | some new =>
        have hmem : (p.2, new) ∈ st2.o2n := h2 new st2 hu
        exact StepOk.trans h1
          (StepOk.trans
            (StepOk.writeHeap st2 c (heapSetDict st2.heap c p.1 new) p.2 new hc2
              hmem (fun r hr => heapGet_heapSetDict_ne st2.heap c p.1 new r hr))
            (ih
              { st2 with heap := heapSetDict st2.heap c p.1 new,
                         writes := st2.writes ++ [(p.2, new)] } c hc2))
    | err st2 =>
      rw [hu] at h1
      exact h1
    | fuelOut st2 =>
      rw [hu] at h1
      exact h1

theorem listLoop_step (env : UpEnv) (f : Nat)
    (HU : ∀ st obj, StepOk st (resStateU (uot env f st obj)) ∧
      (∀ n st2, uot env f st obj = UotRes.val (Option.some n) st2 →
        (obj, n) ∈ st2.o2n)) :
    ∀ (slots : List Ref) (i : Nat) (st : UpState) (c : Ref), c ∈ st.visited →
      StepOk st (resState (listLoop env f st c i slots)) := by
  intro slots
  induction slots with
  | nil =>
    intro i st c hc
    rw [listLoop]
    exact StepOk.rfl st
  | cons v rest ih =>
    intro i st c hc
    rw [listLoop]
    obtain ⟨h1, h2⟩ := HU st v
    cases hu : uot env f st v with
    | val rep st2 =>
      rw [hu] at h1
      have hc2 : c ∈ st2.visited := by
        obtain ⟨⟨dv, hv, _, _⟩, _, _, _⟩ := h1
        rw [show st2.visited = st.visited ++ dv from hv]
        exact List.mem_append_left _ hc
      cases rep with
      | none => exact StepOk.trans h1 (ih (i + 1) st2 c hc2)
      | some new =>
        have hmem : (v, new) ∈ st2.o2n := h2 new st2 hu
        exact StepOk.trans h1
          (StepOk.trans
            (StepOk.writeHeap st2 c (heapSetList st2.heap c i new) v new hc2
              hmem (fun r hr => heapGet_heapSetList_ne st2.heap c i new r hr))
            (ih (i + 1)
              { st2 with heap := heapSetList st2.heap c i new,
                         writes := st2.writes ++ [(v, new)] } c hc2))
    | err st2 =>
      rw [hu] at h1
      exact h1
    | fuelOut st2 =>
      rw [hu] at h1
      exact h1

theorem attrsLoop_step (env : UpEnv) (f : Nat)
    (HU : ∀ st obj, StepOk st (resStateU (uot env f st obj)) ∧
      (∀ n st2, uot env f st obj = UotRes.val (Option.some n) st2 →
        (obj, n) ∈ st2.o2n)) :
    ∀ (slots : List (String × Ref)) (st : UpState) (c : Ref), c ∈ st.visited →
      StepOk st (resState (attrsLoop env f st c slots)) := by
  intro slots
  induction slots with
  | nil =>
    intro st c hc
    rw [attrsLoop]
    exact StepOk.rfl st
  | cons p rest ih =>
    intro st c hc
    rw [attrsLoop]
    obtain ⟨h1, h2⟩ := HU st p.2
    cases hu : uot env f st p.2 with
    | val rep st2 =>
      rw [hu] at h1
      have hc2 : c ∈ st2.visited := by
        obtain ⟨⟨dv, hv, _, _⟩, _, _, _⟩ := h1
        rw [show st2.visited = st.visited ++ dv from hv]
        exact List.mem_append_left _ hc
      cases rep with
      | none => exact StepOk.trans h1 (ih st2 c hc2)
      | some new =>
        have hmem : (p.2, new) ∈ st2.o2n := h2 new st2 hu
        exact StepOk.trans h1
          (StepOk.trans
            (StepOk.writeHeap st2 c (heapSetPlain st2.heap c p.1 new) p.2 new hc2
              hmem (fun r hr => heapGet_heapSetPlain_ne st2.heap c p.1 new r hr))
            (ih
              { st2 with heap := heapSetPlain st2.heap c p.1 new,
                         writes := st2.writes ++ [(p.2, new)] } c hc2))
    | err st2 =>
      rw [hu] at h1
      exact h1
    | fuelOut st2 =>
      rw [hu] at h1
      exact h1

theorem visit_step (env : UpEnv) :
    ∀ (f : Nat) (st : UpState) (c : Ref), c ∉ st.visited →
      StepOk st (resState (visitC env f st c)) := by
  intro f
  induction f with
  | zero =>
    intro st c hc
    rw [visitC]
    exact StepOk.rfl st
  | succ f ihf =>
    have hU := uot_step env f ihf
    have hD := dictLoop_step env f hU
    have hL := listLoop_step env f hU
    have hA := attrsLoop_step env f hU
    intro st c hc
    have hmark : StepOk st { st with visited := st.visited ++ [c] } :=
      StepOk.mark st c hc
    have hc1 : c ∈ ({ st with visited := st.visited ++ [c] } : UpState).visited :=
      List.mem_append_right _ (List.mem_singleton.mpr (Eq.refl _))
    cases hg : heapGet st.heap c with
    | none =>
      have hvc : visitC env (Nat.succ f) st c =
          UpRes.ok { st with visited := st.visited ++ [c] } := by
        rw [visitC, hg]
      rw [hvc]
      exact hmark
    | some d =>
      cases d with
      | dictObj slots =>
        have hvc : visitC env (Nat.succ f) st c =
            dictLoop env f { st with visited := st.visited ++ [c] } c slots := by
          rw [visitC, hg]
        rw [hvc]
        exact StepOk.trans hmark (hD slots _ c hc1)
      | listObj slots =>
        have hvc : visitC env (Nat.succ f) st c =
            listLoop env f { st with visited := st.visited ++ [c] } c 0 slots := by
          rw [visitC, hg]
        rw [hvc]
        exact StepOk.trans hmark (hL slots 0 _ c hc1)
      | plainObj slots =>
        have hvc : visitC env (Nat.succ f) st c =
            (match attrsLoop env f { st with visited := st.visited ++ [c] } c slots with
             | UpRes.err st2 => UpRes.ok { st2 with warns := st2.warns + 1 }
             | r => r) := by
          rw [visitC, hg]
        rw [hvc]
        have hAr := hA slots { st with visited := st.visited ++ [c] } c hc1
        cases ha : attrsLoop env f { st with visited := st.visited ++ [c] } c slots with
        | ok st2 =>
          rw [ha] at hAr
          exact StepOk.trans hmark hAr
        | err st2 =>
          rw [ha] at hAr
          exact StepOk.trans hmark (StepOk.trans hAr (StepOk.warnBump st2))
        | fuelOut st2 =>
          rw [ha] at hAr
          exact StepOk.trans hmark hAr
      | lockObj =>
        have hvc : visitC env (Nat.succ f) st c =
            UpRes.ok { st with visited := st.visited ++ [c] } := by
          rw [visitC, hg]
        rw [hvc]
        exact hmark
      | badObj =>
        have hvc : visitC env (Nat.succ f) st c =
            UpRes.err { st with visited := st.visited ++ [c] } := by
          rw [visitC, hg]
        rw [hvc]
        exact hmark
      | atomObj =>
        have hvc : visitC env (Nat.succ f) st c =
            UpRes.ok { st with visited := st.visited ++ [c] } := by
          rw [visitC, hg]
        rw [hvc]
        exact hmark

theorem nodupKeys_functional (l : List (Ref × Ref)) (hk : (l.map Prod.fst).Nodup)
    (o n1 n2 : Ref) (h1 : (o, n1) ∈ l) (h2 : (o, n2) ∈ l) : n1 = n2 := by
  induction l with
  | nil => cases h1
  | cons p t ih =>
    rw [List.map_cons, List.nodup_cons] at hk
    rcases List.mem_cons.mp h1 with h1 | h1 <;> rcases List.mem_cons.mp h2 with h2 | h2
    · have h3 : ((o, n1) : Ref × Ref) = (o, n2) := h1.trans h2.symm
      injection h3 with ha hb
    · exfalso
      apply hk.1
      rw [show p.1 = o from by rw [← h1]]
      exact List.mem_map_of_mem Prod.fst h2
    · exfalso
      apply hk.1
      rw [show p.1 = o from by rw [← h2]]
      exact List.mem_map_of_mem Prod.fst h1
    · exact ih hk.2 h1 h2

/-- C5: aliasing preservation of the upgrade pass.  Throughout a pass
started on any heap: `upgrade` is invoked at most once per distinct
original instance (the memo-table keys, which record the calls in
order, are duplicate-free), every slot replacement written is the
memoized pair for its original, and therefore any two slots that
referenced the identical original instance received the identical
replacement instance. -/
theorem upgrade_aliasing (env : UpEnv) (heap : Heap) (root : Ref) (fuel : Nat) :
    ((resState (visitC env fuel ⟨heap, [], [], [], 0⟩ root)).o2n.map Prod.fst).Nodup ∧
      (∀ p ∈ (resState (visitC env fuel ⟨heap, [], [], [], 0⟩ root)).writes,
        p ∈ (resState (visitC env fuel ⟨heap, [], [], [], 0⟩ root)).o2n) ∧
      (∀ o n1 n2,
        (o, n1) ∈ (resState (visitC env fuel ⟨heap, [], [], [], 0⟩ root)).writes →
        (o, n2) ∈ (resState (visitC env fuel ⟨heap, [], [], [], 0⟩ root)).writes →
        n1 = n2) := by
  have h := visit_step env fuel ⟨heap, [], [], [], 0⟩ root (by simp)
  have hwf : WFmemo (resState (visitC env fuel ⟨heap, [], [], [], 0⟩ root)) :=
    h.wf ⟨by simp, by simp⟩
  refine ⟨hwf.1, hwf.2, ?_⟩
  intro o n1 n2 h1 h2
  exact nodupKeys_functional _ hwf.1 o n1 n2 (hwf.2 _ h1) (hwf.2 _ h2)

theorem mU_mono (U : Finset Ref) (st st2 : UpState)
    (h : ∃ dv, st2.visited = st.visited ++ dv) : mU U st2 ≤ mU U st := by
  obtain ⟨dv, hv⟩ := h
  apply Finset.card_le_card
  apply Finset.sdiff_subset_sdiff (Finset.Subset.refl U)
  intro x hx
  rw [List.mem_toFinset] at hx
  rw [hv, List.mem_toFinset]
  exact List.mem_append_left _ hx

theorem mU_mark_lt (U : Finset Ref) (st : UpState) (c : Ref) (hcU : c ∈ U)
    (hcv : c ∉ st.visited) :
    mU U { st with visited := st.visited ++ [c] } < mU U st := by
  apply Finset.card_lt_card
  rw [Finset.ssubset_iff_of_subset]
  · refine ⟨c, ?_, ?_⟩
    · rw [Finset.mem_sdiff, List.mem_toFinset]
      exact ⟨hcU, hcv⟩
    · rw [Finset.mem_sdiff]
      intro ⟨_, hc2⟩
      apply hc2
      rw [List.mem_toFinset]
      exact List.mem_append_right _ (List.mem_singleton.mpr (Eq.refl _))
  · apply Finset.sdiff_subset_sdiff (Finset.Subset.refl U)
    intro x hx
    rw [List.mem_toFinset] at hx
    rw [List.mem_toFinset]
    exact List.mem_append_left _ hx

theorem uot_nofuel (env : UpEnv) (f : Nat) (U : Finset Ref)
    (IHV : ∀ st c, c ∈ U → c ∉ st.visited → UpInv U st → mU U st < f →
      isFuelOut (visitC env f st c) = false) :
    ∀ st obj, obj ∈ U → UpInv U st → mU U st < f →
      isFuelOutU (uot env f st obj) = false := by
  intro st obj hobjU hinv hm
  rw [uot]
  by_cases hv : obj ∈ st.visited
  · rw [if_pos hv]
    rfl
  · rw [if_neg hv]
    cases hg : heapGet st.heap obj with
    | none =>
      cases hc : visitC env f st obj with
      | ok st2 => rfl
      | err st2 => rfl
      | fuelOut st2 =>
        have := IHV st obj hobjU hv hinv hm
        rw [hc] at this
        cases this
    | some d =>
      cases d with
      | badObj => rfl
      | lockObj =>
        cases ho : o2nGet st.o2n obj with
        | some n0 => rfl
        | none => rfl
      | dictObj slots =>
        cases hc : visitC env f st obj with
        | ok st2 => rfl
        | err st2 => rfl
        | fuelOut st2 =>
          have := IHV st obj hobjU hv hinv hm
          rw [hc] at this
          cases this
      | listObj slots =>
        cases hc : visitC env f st obj with
        | ok st2 => rfl
        | err st2 => rfl
        | fuelOut st2 =>
          have := IHV st obj hobjU hv hinv hm
          rw [hc] at this
          cases this
      | plainObj slots =>
        cases hc : visitC env f st obj with
        | ok st2 => rfl
        | err st2 => rfl
        | fuelOut st2 =>
          have := IHV st obj hobjU hv hinv hm
          rw [hc] at this
          cases this
      | atomObj =>
        cases hc : visitC env f st obj with
        | ok st2 => rfl
        | err st2 => rfl
        | fuelOut st2 =>
          have := IHV st obj hobjU hv hinv hm
          rw [hc] at this
          cases this

theorem dictLoop_nofuel (env : UpEnv) (f : Nat) (U : Finset Ref)
    (HUf : ∀ st obj, obj ∈ U → UpInv U st → mU U st < f →
      isFuelOutU (uot env f st obj) = false) :
    ∀ (slots : List (String × Ref)) (st : UpState) (c : Ref),
      (∀ x ∈ slots.map Prod.snd, x ∈ U) → c ∈ st.visited → UpInv U st →
      mU U st < f → isFuelOut (dictLoop env f st c slots) = false := by
  have hU := uot_step env f (visit_step env f)
  intro slots
  induction slots with
  | nil =>
    intro st c hsl hc hinv hm
    rw [dictLoop]
    rfl
  | cons p rest ih =>
    intro st c hsl hc hinv hm
    rw [dictLoop]
    have hp2U : p.2 ∈ U := hsl p.2 (by
      rw [List.map_cons]
      exact List.mem_cons_self p.2 _)
    have hrest : ∀ x ∈ rest.map Prod.snd, x ∈ U := fun x hx => hsl x (by
      rw [List.map_cons]
      exact List.mem_cons_of_mem _ hx)
    obtain ⟨hstep, hval⟩ := hU st p.2
    cases hu : uot env f st p.2 with
    | val rep st2 =>
      rw [hu] at hstep
      have hc2 : c ∈ st2.visited := by
        obtain ⟨⟨dv, hv, _, _⟩, _, _, _⟩ := hstep
        rw [show st2.visited = st.visited ++ dv from hv]
        exact List.mem_append_left _ hc
      have hinv2 : UpInv U st2 := hstep.inv U hinv
      have hm2 : mU U st2 < f :=
        Nat.lt_of_le_of_lt (mU_mono U st st2 (by
          obtain ⟨⟨dv, hv, _, _⟩, _, _, _⟩ := hstep
          exact ⟨dv, hv⟩)) hm
      cases rep with
      | none => exact ih st2 c hrest hc2 hinv2 hm2
      | some new =>
        have hmem : (p.2, new) ∈ st2.o2n := hval new st2 hu
        have hwr := StepOk.writeHeap st2 c (heapSetDict st2.heap c p.1 new) p.2 new
          hc2 hmem (fun r hr => heapGet_heapSetDict_ne st2.heap c p.1 new r hr)
        exact ih _ c hrest hc2 (hwr.inv U hinv2) hm2
    | err st2 => rfl
    | fuelOut st2 =>
      have := HUf st p.2 hp2U hinv hm
      rw [hu] at this
      cases this

theorem listLoop_nofuel (env : UpEnv) (f : Nat) (U : Finset Ref)
    (HUf : ∀ st obj, obj ∈ U → UpInv U st → mU U st < f →
      isFuelOutU (uot env f st obj) = false) :
    ∀ (slots : List Ref) (i : Nat) (st : UpState) (c : Ref),
      (∀ x ∈ slots, x ∈ U) → c ∈ st.visited → UpInv U st →
      mU U st < f → isFuelOut (listLoop env f st c i slots) = false := by
  have hU := uot_step env f (visit_step env f)
  intro slots
  induction slots with
  | nil =>
    intro i st c hsl hc hinv hm
    rw [listLoop]
    rfl
  | cons v rest ih =>
    intro i st c hsl hc hinv hm
    rw [listLoop]
    have hp2U : v ∈ U := hsl v (List.mem_cons_self v rest)
    have hrest : ∀ x ∈ rest, x ∈ U := fun x hx => hsl x (List.mem_cons_of_mem _ hx)
    obtain ⟨hstep, hval⟩ := hU st v
    cases hu : uot env f st v with
    | val rep st2 =>
      rw [hu] at hstep
      have hc2 : c ∈ st2.visited := by
        obtain ⟨⟨dv, hv, _, _⟩, _, _, _⟩ := hstep
        rw [show st2.visited = st.visited ++ dv from hv]
        exact List.mem_append_left _ hc
      have hinv2 : UpInv U st2 := hstep.inv U hinv
      have hm2 : mU U st2 < f :=
        Nat.lt_of_le_of_lt (mU_mono U st st2 (by
          obtain ⟨⟨dv, hv, _, _⟩, _, _, _⟩ := hstep
          exact ⟨dv, hv⟩)) hm
      cases rep with
      | none => exact ih (i + 1) st2 c hrest hc2 hinv2 hm2
      | some new =>
        have hmem : (v, new) ∈ st2.o2n := hval new st2 hu
        have hwr := StepOk.writeHeap st2 c (heapSetList st2.heap c i new) v new
          hc2 hmem (fun r hr => heapGet_heapSetList_ne st2.heap c i new r hr)
        exact ih (i + 1) _ c hrest hc2 (hwr.inv U hinv2) hm2
    | err st2 => rfl
    | fuelOut st2 =>
      have := HUf st v hp2U hinv hm
      rw [hu] at this
      cases this

theorem attrsLoop_nofuel (env : UpEnv) (f : Nat) (U : Finset Ref)
    (HUf : ∀ st obj, obj ∈ U → UpInv U st → mU U st < f →
      isFuelOutU (uot env f st obj) = false) :
    ∀ (slots : List (String × Ref)) (st : UpState) (c : Ref),
      (∀ x ∈ slots.map Prod.snd, x ∈ U) → c ∈ st.visited → UpInv U st →
      mU U st < f → isFuelOut (attrsLoop env f st c slots) = false := by
  have hU := uot_step env f (visit_step env f)
  intro slots
  induction slots with
  | nil =>
    intro st c hsl hc hinv hm
    rw [attrsLoop]
    rfl
  | cons p rest ih =>
    intro st c hsl hc hinv hm
    rw [attrsLoop]
    have hp2U : p.2 ∈ U := hsl p.2 (by
      rw [List.map_cons]
      exact List.mem_cons_self p.2 _)
    have hrest : ∀ x ∈ rest.map Prod.snd, x ∈ U := fun x hx => hsl x (by
      rw [List.map_cons]
      exact List.mem_cons_of_mem _ hx)
    obtain ⟨hstep, hval⟩ := hU st p.2
    cases hu : uot env f st p.2 with
    | val rep st2 =>
      rw [hu] at hstep
      have hc2 : c ∈ st2.visited := by
        obtain ⟨⟨dv, hv, _, _⟩, _, _, _⟩ := hstep
        rw [show st2.visited = st.visited ++ dv from hv]
        exact List.mem_append_left _ hc
      have hinv2 : UpInv U st2 := hstep.inv U hinv
      have hm2 : mU U st2 < f :=
        Nat.lt_of_le_of_lt (mU_mono U st st2 (by
          obtain ⟨⟨dv, hv, _, _⟩, _, _, _⟩ := hstep
          exact ⟨dv, hv⟩)) hm
      cases rep with
      | none => exact ih st2 c hrest hc2 hinv2 hm2
      | some new =>
        have hmem : (p.2, new) ∈ st2.o2n := hval new st2 hu
        have hwr := StepOk.writeHeap st2 c (heapSetPlain st2.heap c p.1 new) p.2 new
          hc2 hmem (fun r hr => heapGet_heapSetPlain_ne st2.heap c p.1 new r hr)
        exact ih _ c hrest hc2 (hwr.inv U hinv2) hm2
    | err st2 => rfl
    | fuelOut st2 =>
      have := HUf st p.2 hp2U hinv hm
      rw [hu] at this
      cases this

theorem visit_nofuel (env : UpEnv) (U : Finset Ref) :
    ∀ (f : Nat) (st : UpState) (c : Ref), c ∈ U → c ∉ st.visited → UpInv U st →
      mU U st < f → isFuelOut (visitC env f st c) = false := by
  intro f
  induction f with
  | zero =>
    intro st c hcU hcv hinv hm
    exact absurd hm (Nat.not_lt_zero _)
  | succ f ih =>
    have hUno := uot_nofuel env f U ih
    have hD := dictLoop_nofuel env f U hUno
    have hL := listLoop_nofuel env f U hUno
    have hA := attrsLoop_nofuel env f U hUno
    intro st c hcU hcv hinv hm
    have hc1 : c ∈ ({ st with visited := st.visited ++ [c] } : UpState).visited :=
      List.mem_append_right _ (List.mem_singleton.mpr (Eq.refl _))
    have hinv1 : UpInv U ({ st with visited := st.visited ++ [c] } : UpState) :=
      (StepOk.mark st c hcv).inv U hinv
    have hm1 : mU U ({ st with visited := st.visited ++ [c] } : UpState) < f := by
      have h := mU_mark_lt U st c hcU hcv
      omega
    cases hg : heapGet st.heap c with
    | none =>
      have hvc : visitC env (Nat.succ f) st c =
          UpRes.ok { st with visited := st.visited ++ [c] } := by
        rw [visitC, hg]
      rw [hvc]
      rfl
    | some d =>
      have hslots : ∀ x ∈ slotRefs d, x ∈ U := hinv c d hg hcv
      cases d with
      | dictObj slots =>
        have hvc : visitC env (Nat.succ f) st c =
            dictLoop env f { st with visited := st.visited ++ [c] } c slots := by
          rw [visitC, hg]
        rw [hvc]
        exact hD slots _ c hslots hc1 hinv1 hm1
      | listObj slots =>
        have hvc : visitC env (Nat.succ f) st c =
            listLoop env f { st with visited := st.visited ++ [c] } c 0 slots := by
          rw [visitC, hg]
        rw [hvc]
        exact hL slots 0 _ c hslots hc1 hinv1 hm1
      | plainObj slots =>
        have hvc : visitC env (Nat.succ f) st c =
            (match attrsLoop env f { st with visited := st.visited ++ [c] } c slots with
             | UpRes.err st2 => UpRes.ok { st2 with warns := st2.warns + 1 }
             | r => r) := by
          rw [visitC, hg]
        rw [hvc]
        have hAr := hA slots _ c hslots hc1 hinv1 hm1
        cases ha : attrsLoop env f { st with visited := st.visited ++ [c] } c slots with
        | ok st2 => rfl
        | err st2 => rfl
        | fuelOut st2 =>
          rw [ha] at hAr
          cases hAr
      | lockObj =>
        have hvc : visitC env (Nat.succ f) st c =
            UpRes.ok { st with visited := st.visited ++ [c] } := by
          rw [visitC, hg]
        rw [hvc]
        rfl
      | badObj =>
        have hvc : visitC env (Nat.succ f) st c =
            UpRes.err { st with visited := st.visited ++ [c] } := by
          rw [visitC, hg]
        rw [hvc]
        rfl
      | atomObj =>
        have hvc : visitC env (Nat.succ f) st c =
            UpRes.ok { st with visited := st.visited ++ [c] } := by
          rw [visitC, hg]
        rw [hvc]
        rfl

/-- C6: cycle safety and at-most-once visiting.  For every finite object
heap — reference cycles included — the upgrade traversal started at any
present root terminates (with fuel exceeding the number of identities
the heap mentions, the fuel-exhaustion marker is never returned; fuel
only bounds recursion depth, so this is termination of the source
recursion), and each distinct object identity is entered as a container
at most once: the visited list, which records entries in order, is
duplicate-free. -/
theorem upgrade_terminates_visits_once (env : UpEnv) (heap : Heap) (root : Ref)
    (fuel : Nat) (hroot : (heapGet heap root).isSome)
    (hfuel : (refUniverse heap).card < fuel) :
    isFuelOut (visitC env fuel ⟨heap, [], [], [], 0⟩ root) = false ∧
      (resState (visitC env fuel ⟨heap, [], [], [], 0⟩ root)).visited.Nodup := by
  obtain ⟨d, hd⟩ := Option.isSome_iff_exists.mp hroot
  have hrootU : root ∈ refUniverse heap := (refUniverse_of_heapGet heap root d hd).1
  have hinv : UpInv (refUniverse heap) ⟨heap, [], [], [], 0⟩ := by
    intro r d2 hget hrv x hx
    exact (refUniverse_of_heapGet heap r d2 hget).2 x hx
  have hm : mU (refUniverse heap) ⟨heap, [], [], [], 0⟩ < fuel := by
    rw [show mU (refUniverse heap) ⟨heap, [], [], [], 0⟩
      = (refUniverse heap \ ([] : List Ref).toFinset).card from Eq.refl _]
    simpa using hfuel
  constructor
  · exact visit_nofuel env (refUniverse heap) fuel ⟨heap, [], [], [], 0⟩ root hrootU
      (by simp) hinv hm
  · have h := visit_step env fuel ⟨heap, [], [], [], 0⟩ root (by simp)
    obtain ⟨⟨dv, hv, hnd, _⟩, _, _, _⟩ := h
    rw [hv]
    simpa using hnd

/-- Witness for C6: a three-object heap with a reference cycle between a
dict and a plain object, the latter also holding a lock. -/
theorem upgrade_terminates_visits_once_witness :
    ((heapGet [(0, ObjData.dictObj [("a", 1)]),
        (1, ObjData.plainObj [("x", 0), ("y", 2)]),
        (2, ObjData.lockObj)] 0).isSome) ∧
      ((refUniverse [(0, ObjData.dictObj [("a", 1)]),
        (1, ObjData.plainObj [("x", 0), ("y", 2)]),
        (2, ObjData.lockObj)]).card < 4) ∧
      (isFuelOut (visitC ⟨fun r k => 100 + k⟩ 4
        ⟨[(0, ObjData.dictObj [("a", 1)]),
          (1, ObjData.plainObj [("x", 0), ("y", 2)]),
          (2, ObjData.lockObj)], [], [], [], 0⟩ 0) = false ∧
      (resState (visitC ⟨fun r k => 100 + k⟩ 4
        ⟨[(0, ObjData.dictObj [("a", 1)]),
          (1, ObjData.plainObj [("x", 0), ("y", 2)]),
          (2, ObjData.lockObj)], [], [], [], 0⟩ 0)).visited.Nodup) :=
  ⟨by decide, by decide,
    upgrade_terminates_visits_once ⟨fun r k => 100 + k⟩
      [(0, ObjData.dictObj [("a", 1)]),
        (1, ObjData.plainObj [("x", 0), ("y", 2)]),
        (2, ObjData.lockObj)] 0 4 (by decide) (by decide)⟩

/-- Counterexample to C9 as stated.  First part: a node whose evaluation
raises, reached as a dict value, propagates the exception out of the
whole upgrade pass (the dict-value loop is not protected) — the error
is not recovered locally.  Second part: when a raising node is reached
through an object's attributes, the error is caught and logged (one
warning), but the remaining attributes of that object are skipped, not
continued: the lock sitting in the later attribute slot is never
upgraded (the memo table stays empty). -/
theorem upgrade_error_propagates_counterexample :
    (isErr (visitC ⟨fun r k => 100 + k⟩ 3
      ⟨[(0, ObjData.dictObj [("m", 1)]), (1, ObjData.badObj)], [], [], [], 0⟩ 0)
      = true) ∧
      (visitC ⟨fun r k => 100 + k⟩ 3
          ⟨[(0, ObjData.plainObj [("a", 1), ("b", 2)]), (1, ObjData.badObj),
            (2, ObjData.lockObj)], [], [], [], 0⟩ 0
        = UpRes.ok ⟨[(0, ObjData.plainObj [("a", 1), ("b", 2)]), (1, ObjData.badObj),
            (2, ObjData.lockObj)], [0], [], [], 1⟩) := by
  constructor
  · simp [visitC, uot, dictLoop, listLoop, attrsLoop, heapGet, o2nGet, isErr]
  · simp [visitC, uot, dictLoop, listLoop, attrsLoop, heapGet, o2nGet]

/-- C9 amended: a failure while evaluating a node reached through an
object's attribute dictionary is caught by that object's traversal: the
pass over that object never lets the exception escape (the result is
never an error), and when the attribute loop does raise, the object's
traversal returns normally with exactly one more logged warning —
abandoning that object's remaining attributes.  Failures reached
through dict values or list elements are not caught and propagate to
the caller (first counterexample part). -/
theorem upgrade_error_containment (env : UpEnv) (f : Nat) (st : UpState) (c : Ref)
    (slots : List (String × Ref))
    (hc : heapGet st.heap c = Option.some (ObjData.plainObj slots)) :
    isErr (visitC env f st c) = false ∧
      (∀ st2, attrsLoop env f { st with visited := st.visited ++ [c] } c slots
          = UpRes.err st2 →
        visitC env (Nat.succ f) st c = UpRes.ok { st2 with warns := st2.warns + 1 }) := by
  have hvc : visitC env (Nat.succ f) st c =
      (match attrsLoop env f { st with visited := st.visited ++ [c] } c slots with
       | UpRes.err st2 => UpRes.ok { st2 with warns := st2.warns + 1 }
       | r => r) := by
    rw [visitC, hc]
  constructor
  · cases f with
    | zero =>
      rw [visitC]
      rfl
    | succ f2 =>
      have hvc2 : visitC env (Nat.succ f2) st c =
          (match attrsLoop env f2 { st with visited := st.visited ++ [c] } c slots with
           | UpRes.err st2 => UpRes.ok { st2 with warns := st2.warns + 1 }
           | r => r) := by
        rw [visitC, hc]
      rw [hvc2]
      cases ha : attrsLoop env f2 { st with visited := st.visited ++ [c] } c slots with
      | ok st2 => rfl
      | err st2 => rfl
      | fuelOut st2 => rfl
  · intro st2 ha
    rw [hvc, ha]

/-- Witness for the amended C9 theorem: a plain object whose only
attribute is a raising node; the pass returns normally. -/
theorem upgrade_error_containment_witness :
    (heapGet [(0, ObjData.plainObj [("x", 1)]), (1, ObjData.badObj)] 0
      = Option.some (ObjData.plainObj [("x", 1)])) ∧
      (isErr (visitC ⟨fun r k => 100 + k⟩ 2
        ⟨[(0, ObjData.plainObj [("x", 1)]), (1, ObjData.badObj)], [], [], [], 0⟩ 0)
        = false ∧
      (∀ st2, attrsLoop ⟨fun r k => 100 + k⟩ 2
          { (⟨[(0, ObjData.plainObj [("x", 1)]), (1, ObjData.badObj)],
              [], [], [], 0⟩ : UpState) with
            visited := ([] : List Ref) ++ [0] } 0 [("x", 1)]
          = UpRes.err st2 →
        visitC ⟨fun r k => 100 + k⟩ (Nat.succ 2)
            ⟨[(0, ObjData.plainObj [("x", 1)]), (1, ObjData.badObj)],
              [], [], [], 0⟩ 0
          = UpRes.ok { st2 with warns := st2.warns + 1 })) :=
  ⟨rfl, upgrade_error_containment ⟨fun r k => 100 + k⟩ 2
    ⟨[(0, ObjData.plainObj [("x", 1)]), (1, ObjData.badObj)], [], [], [], 0⟩ 0
    [("x", 1)] rfl⟩

theorem pyAcquire_newShape (pyMe k : Nat) :
    pyAcquire pyMe (newShape pyMe k) = some (newShape pyMe (k + 1)) := by
  cases k with
  | zero => simp [pyAcquire, newShape, lowAcquire]
  | succ m => simp [pyAcquire, newShape]

theorem convertLoop_notOwned (nativeMe pyMe : Nat) (old : OldRLock) (new : PyRLock)
    (acq : Bool) (rels : Nat) (h : oldIsOwned nativeMe old = false) :
    convertLoop nativeMe pyMe old new acq rels = some (old, new, acq, rels) := by
  rw [convertLoop]
  simp [h]

theorem convertLoop_owned (nativeMe pyMe : Nat) :
    ∀ n k rels : Nat, ∀ acq : Bool, 1 ≤ n →
      convertLoop nativeMe pyMe ⟨some nativeMe, n⟩ (newShape pyMe k) acq rels =
        some (⟨none, 0⟩, newShape pyMe (k + n), true, rels + n) := by
  intro n
  induction n with
  | zero => intro k rels acq h; omega
  | succ m ih =>
    intro k rels acq _
    rw [convertLoop]
    have hown : oldIsOwned nativeMe ⟨some nativeMe, m + 1⟩ = true := by
      simp [oldIsOwned]
    rw [dif_pos hown]
    simp only [pyAcquire_newShape]
    cases m with
    | zero =>
      have hrel : oldRelease ⟨some nativeMe, 0 + 1⟩ = ⟨none, 0⟩ := by
        simp [oldRelease]
      rw [hrel, convertLoop_notOwned]
      simp [oldIsOwned]
    | succ m2 =>
      have hrel : oldRelease ⟨some nativeMe, m2 + 1 + 1⟩ = ⟨some nativeMe, m2 + 1⟩ := by
        simp [oldRelease]
      rw [hrel, ih (k + 1) (rels + 1) true (by omega)]
      have h1 : k + 1 + (m2 + 1) = k + (m2 + 1 + 1) := by omega
      have h2 : rels + 1 + (m2 + 1) = rels + (m2 + 1 + 1) := by omega
      rw [h1, h2]

/-- C7: lock-state transfer.  For an original reentrant lock held n ≥ 0
times by the current native thread at the instant of replacement (a
well-formed native lock: owned implies count ≥ 1), convert_py3_rlock
returns normally with a new portable lock whose recursion depth equals
n, whose low-level handle is the cooperative (green) one, whose
ownership record is pinned to the current green identity tid when
n ≥ 1 and empty when n = 0; the original is released exactly n times
and ends not held by the current thread. -/
theorem convert_rlock_state_transfer (env : ConvEnv) (old : OldRLock)
    (nativeMe pyMe tid : Nat)
    (henv : env.pyRLockHasInternals = true)
    (hwf : old.owner = some nativeMe → 1 ≤ old.count) :
    ∃ old2 new rels,
      convert_py3_rlock env old nativeMe pyMe tid = Except.ok (old2, new, rels) ∧
      new.count = heldBy nativeMe old ∧
      (∃ b, new.block = LowLock.greenL b) ∧
      (1 ≤ heldBy nativeMe old → new.owner = some tid) ∧
      (heldBy nativeMe old = 0 → new.owner = none) ∧
      rels = heldBy nativeMe old ∧
      heldBy nativeMe old2 = 0 := by
  obtain ⟨o, c⟩ := old
  by_cases hown : o = some nativeMe
  · subst hown
    have hc1 : 1 ≤ c := hwf rfl
    have hheld : heldBy nativeMe ⟨some nativeMe, c⟩ = c := by simp [heldBy]
    refine ⟨⟨none, 0⟩, ⟨LowLock.greenL true, some tid, c⟩, c, ?_, ?_, ⟨true, rfl⟩, ?_, ?_, ?_, ?_⟩
    · have hdead : oldIsOwned nativeMe ⟨none, 0⟩ = false := by simp [oldIsOwned]
      have hns : newShape pyMe (0 + c) = ⟨LowLock.greenL true, some pyMe, c⟩ := by
        simp [newShape]
        omega
      have hloop2 : convertLoop nativeMe pyMe ⟨some nativeMe, c⟩
          ⟨LowLock.greenL false, none, 0⟩ false 0 =
          some (⟨none, 0⟩, (⟨LowLock.greenL true, some pyMe, c⟩ : PyRLock), true, c) := by
        have hl := convertLoop_owned nativeMe pyMe c 0 0 false hc1
        rw [show (newShape pyMe 0) = (⟨LowLock.greenL false, none, 0⟩ : PyRLock) from rfl] at hl
        rw [hl, hns]
        simp
      simp [convert_py3_rlock, henv, hloop2, hdead]
    · rw [hheld]
    · intro h2
      rfl
    · intro h2
      rw [hheld] at h2
      omega
    · rw [hheld]
    · simp [heldBy]
  · have hheld : heldBy nativeMe ⟨o, c⟩ = 0 := by
      simp [heldBy]
      intro hh
      exact absurd hh hown
    refine ⟨⟨o, c⟩, ⟨LowLock.greenL false, none, 0⟩, 0, ?_, ?_, ⟨false, rfl⟩, ?_, ?_, ?_, ?_⟩
    · have hno : oldIsOwned nativeMe ⟨o, c⟩ = false := by
        simp [oldIsOwned]
        intro hh
        exact absurd hh hown
      have hloop2 : convertLoop nativeMe pyMe ⟨o, c⟩
          ⟨LowLock.greenL false, none, 0⟩ false 0 =
          some (⟨o, c⟩, (⟨LowLock.greenL false, none, 0⟩ : PyRLock), false, 0) :=
        convertLoop_notOwned nativeMe pyMe _ _ _ _ hno
      simp [convert_py3_rlock, henv, hloop2, hno]
    · rw [hheld]
    · intro h2
      rw [hheld] at h2
      omega
    · intro h2
      rfl
    · rw [hheld]
    · exact hheld

/-- Witness for C7: the current native thread (ident 7) holds the
original lock 3 times; the result is computed concretely. -/
theorem convert_rlock_state_transfer_witness :
    ((⟨true⟩ : ConvEnv).pyRLockHasInternals = true ∧
      ((⟨some 7, 3⟩ : OldRLock).owner = some 7 → 1 ≤ (⟨some 7, 3⟩ : OldRLock).count)) ∧
      (∃ old2 new rels,
        convert_py3_rlock ⟨true⟩ ⟨some 7, 3⟩ 7 42 9 = Except.ok (old2, new, rels) ∧
        new.count = heldBy 7 ⟨some 7, 3⟩ ∧
        (∃ b, new.block = LowLock.greenL b) ∧
        (1 ≤ heldBy 7 ⟨some 7, 3⟩ → new.owner = some 9) ∧
        (heldBy 7 ⟨some 7, 3⟩ = 0 → new.owner = none) ∧
        rels = heldBy 7 ⟨some 7, 3⟩ ∧
        heldBy 7 old2 = 0) :=
  ⟨⟨rfl, fun _ => by decide⟩,
    convert_rlock_state_transfer ⟨true⟩ ⟨some 7, 3⟩ 7 42 9 rfl (fun _ => by decide)⟩

end EventletPatcher

